import Mathlib

/-!
# gitgrep: a shallow embedding of the filter pipeline, the Hyperscan match
handler and the repository acquirers

Go `[]byte` values are lists of `UInt8`; Go `string` values that hold file
content are kept as byte lists too, paths and patterns are Lean strings.
Unsigned 64-bit arithmetic is arithmetic on `Nat` reduced modulo `2^64`.
-/

set_option autoImplicit false

namespace Gitgrep

/-! ## Bytes and strings -/

abbrev Bytes := List UInt8

/-- The bytes of a Go string literal (its UTF-8 encoding). -/
def utf8 (s : String) : Bytes := s.toList.flatMap String.utf8EncodeChar

/-- Go `strings.HasSuffix`:
`len(s) >= len(suffix) && s[len(s)-len(suffix):] == suffix`. -/
def HasSuffix (s suffix : String) : Bool :=
  decide (suffix.length ≤ s.length) &&
    (s.toList.drop (s.length - suffix.length) == suffix.toList)

/-- Go `strconv.IsPrint` on a rune obtained from a byte (`r <= 0xFF`): ASCII
from space through `~`, and Latin-1 from `¡` through `ÿ` except the soft
hyphen `0xAD`. -/
def IsPrint (r : Nat) : Bool :=
  if 0x20 ≤ r ∧ r ≤ 0x7E then true
  else if 0xA1 ≤ r ∧ r ≤ 0xFF then r != 0xAD
  else false

/-- `MinInt` of grep/util.go. -/
def MinInt (a b : Int) : Int := if a ≤ b then a else b

/-! ## grep/options.go -/

structure ExtensionFilterOption where
  extensions : List String
  inverse : Bool

/-- The loop of `fileHasAnyExtension`: return true at the first extension
that is a suffix of the path. -/
def ExtensionFilterOption.fileHasAnyExtension (f : ExtensionFilterOption) (path : String) : Bool :=
  go f.extensions
where
  go : List String → Bool
    | [] => false
    | e :: es => if HasSuffix path e then true else go es

structure FileContentFilterOption where
  cb : Bytes → Bool

/-- The two implementations of the `GrepOption` interface. -/
inductive GrepOption where
  | extension (f : ExtensionFilterOption)
  | content (f : FileContentFilterOption)

def GrepOption.SkipFile : GrepOption → String → Bool
  | .extension f, path => f.fileHasAnyExtension path != f.inverse
  | .content _, _ => false

def GrepOption.SkipFileContent : GrepOption → Bytes → Bool
  | .extension _, _ => false
  | .content f, data => f.cb data

def WithFileExtensions (extensions : List String) : GrepOption :=
  .extension { extensions := extensions, inverse := false }

def WithExcludedFileExtensions (extensions : List String) : GrepOption :=
  .extension { extensions := extensions, inverse := true }

def checkSize : Int := 64

/-- `int(0.75 * checkSize)`, a constant expression evaluating to 48. -/
def neededPrintable : Int := 48

/-- The callback of `WithPrintableContent`: count the printable bytes among
the first `MinInt(len(data), checkSize)` and compare with `neededPrintable`. -/
def printableCb (data : Bytes) : Bool :=
  let maxPos := MinInt data.length checkSize
  let nReadable : Int := (List.range maxPos.toNat).foldl
    (fun n i => match data[i]? with
      | some b => if IsPrint b.toNat then n + 1 else n
      | none => n) 0
  decide (nReadable ≥ neededPrintable)

def WithPrintableContent : GrepOption :=
  .content { cb := printableCb }

/-! ## grep/grep.go and grep/hyperscan.go -/

structure Result where
  PatternID : Nat
  Path : String
  Content : Bytes
  Comment : Bytes
  Pattern : String
  deriving DecidableEq, Repr

/-- Modulus of `uint64` arithmetic. -/
def u64 : Nat := 2 ^ 64

/-- Sum of two `uint64` values. -/
def addU64 (a b : Nat) : Nat := (a + b) % u64

/-- Difference of two `uint64` values (operands below `2^64`), wrapping
around below zero. -/
def subU64 (a b : Nat) : Nat := (a + u64 - b) % u64

/-- Go `bytes.IndexByte`: index of the first occurrence of `c`, or -1. -/
def IndexByte : Bytes → UInt8 → Int
  | [], _ => -1
  | x :: xs, c =>
    if x == c then 0
    else
      let r := IndexByte xs c
      if r == -1 then -1 else r + 1

/-- Go `bytes.LastIndexByte`: index of the last occurrence of `c`, or -1. -/
def LastIndexByte : Bytes → UInt8 → Int
  | [], _ => -1
  | x :: xs, c =>
    let r := LastIndexByte xs c
    if r != -1 then r + 1
    else if x == c then 0 else -1

/-- A Go slice expression `b[lo:hi]`; `none` is the run-time panic for bounds
out of range (the capacity of the buffer is taken to be its length). -/
def slice (b : Bytes) (lo hi : Nat) : Option Bytes :=
  if lo ≤ hi ∧ hi ≤ b.length then some ((b.drop lo).take (hi - lo)) else none

def newline : UInt8 := 10

def maxLineDelta : Nat := 32

/-- The window `(lineStart, lineEnd)` computed by the match handler of
`HyperscanGrepper.Grep` for the span `[from_, to_)`; all arithmetic is
`uint64`. -/
def lineWindow (inputData : Bytes) (from_ to_ : Nat) : Option (Nat × Nat) := do
  let before ← slice inputData 0 from_
  let after ← slice inputData to_ inputData.length
  let _lineStart := LastIndexByte before newline
  let _lineEnd := IndexByte after newline
  let lineStart := if _lineStart == -1 then 0 else addU64 _lineStart.toNat 1
  let lineEnd :=
    if _lineEnd == -1 then subU64 inputData.length 1 else addU64 to_ _lineEnd.toNat
  let lineStart :=
    if subU64 from_ lineStart > maxLineDelta then
      (if subU64 from_ maxLineDelta < 0 then 0 else subU64 from_ maxLineDelta)
    else lineStart
  let lineEnd :=
    if subU64 lineEnd to_ > maxLineDelta then
      (if addU64 to_ maxLineDelta ≥ inputData.length then subU64 inputData.length 1
       else addU64 to_ maxLineDelta)
    else lineEnd
  pure (lineStart, lineEnd)

/-- The context string `line := inputData[lineStart:lineEnd]` of the match
handler. -/
def contextLine (inputData : Bytes) (from_ to_ : Nat) : Option Bytes := do
  let w ← lineWindow inputData from_ to_
  slice inputData w.1 w.2

structure scanCtx where
  inputData : Bytes
  fileName : String

/-- The match handler of `HyperscanGrepper.Grep`: the result it appends for a
callback `(id, from_, to_)`, or `none` when a slice expression panics. -/
def matchHandler (patternMap : Nat → Option String) (path : String) (ctx : scanCtx)
    (id from_ to_ : Nat) : Option Result := do
  let line ← contextLine ctx.inputData from_ to_
  let pattern := (patternMap id).getD "<unknown>"
  let content ← slice ctx.inputData from_ to_
  pure {
    PatternID := id
    Pattern := pattern
    Path := path
    Content := content
    Comment := utf8 ctx.fileName ++ utf8 ": [" ++ content ++ utf8 "] " ++ line }

/-- The condition of the deduplication loop for the element `m` at index `i`;
`results[i+1]` is only read when `i` is not the last index. -/
def dedupKeep (results : List Result) (i : Nat) (m : Result) : Bool :=
  i == results.length - 1 ||
    (match results[i + 1]? with
     | some next =>
       next.PatternID != m.PatternID ||
         (decide (next.Content.length < m.Content.length) && next.PatternID == m.PatternID)
     | none => false)

/-- The deduplication loop of `HyperscanGrepper.Grep`
(`for i, match := range results`), returning `tmp`. -/
def dedup (results : List Result) : List Result :=
  (List.range results.length).foldl
    (fun tmp i =>
      match results[i]? with
      | some m => if dedupKeep results i m then tmp ++ [m] else tmp
      | none => tmp) []

/-- One match callback of the engine: pattern id and span. -/
structure MatchEvent where
  id : Nat
  from_ : Nat
  to_ : Nat

/-- The compiled matcher: `scan` stands for `hsDb.Scan`, the callbacks the
engine delivers for a block and whether the scan ends with an error. -/
structure HyperscanGrepper where
  scan : Bytes → List MatchEvent × Bool
  patternMap : Nat → Option String

/-- One invocation of the walk function: path, whether the entry is a
directory, whether the walk reports an error for it, and what `ReadFile`
returns for it (`none` is a read error). -/
structure WalkEntry where
  path : String
  isDir : Bool
  cberr : Bool
  content : Option Bytes

/-- The walk function passed to `Walk` by `HyperscanGrepper.Grep`: the new
`results` and whether it returns an error; `none` when the handler panics. -/
def HyperscanGrepper.visit (hsg : HyperscanGrepper) (options : List GrepOption)
    (e : WalkEntry) (results : List Result) : Option (List Result × Bool) :=
  if e.cberr then some (results, true)
  else if e.isDir then some (results, false)
  else if options.any (fun o => o.SkipFile e.path) then some (results, false)
  else
    match e.content with
    | none => some (results, false)
    | some content =>
      if options.any (fun o => o.SkipFileContent content) then some (results, false)
      else do
        let ctx : scanCtx := { inputData := content, fileName := e.path }
        let results ← (hsg.scan content).1.foldlM
          (fun rs ev => (matchHandler hsg.patternMap e.path ctx ev.id ev.from_ ev.to_).map
            (fun r => rs ++ [r])) results
        pure (results, (hsg.scan content).2)

/-- The walk: entries are visited in order until the walk function returns an
error. -/
def HyperscanGrepper.walkAll (hsg : HyperscanGrepper) (options : List GrepOption) :
    List WalkEntry → List Result → Option (List Result × Bool)
  | [], results => some (results, false)
  | e :: es, results =>
    match hsg.visit options e results with
    | none => none
    | some (results, true) => some (results, true)
    | some (results, false) => hsg.walkAll options es results

/-- `HyperscanGrepper.Grep` over the entries the walk delivers: collect, then
deduplicate; the flag is the returned error. -/
def HyperscanGrepper.Grep (hsg : HyperscanGrepper) (entries : List WalkEntry)
    (options : List GrepOption) : Option (List Result × Bool) :=
  match hsg.walkAll options entries [] with
  | none => none
  | some (results, err) => some (dedup results, err)

/-! ## The operating system seen by gitdown

Temporary directories and files are tracked by name; `trace` records the
file-system calls in the order they are issued. -/

inductive Syscall where
  | MkdirTemp (name : String)
  | TempFile (name : String)
  | RemoveAll (path : String)
  | Close (name : String)
  | Remove (name : String)
  deriving DecidableEq, Repr

structure World where
  /-- Existing temporary directories. -/
  dirs : List String
  /-- Existing temporary files. -/
  files : List String
  /-- Names of the files that have an open descriptor. -/
  openFiles : List String
  /-- Number of temporary names handed out so far. -/
  serial : Nat
  trace : List Syscall
  deriving DecidableEq, Repr

inductive Error where
  | ErrInvalidLocation
  | mkdirTemp
  | tempFile
  | newRequest
  | urlParse
  | transport
  | zipFormat
  | copy
  | seek
  | cloning
  deriving DecidableEq, Repr

structure ZipEntry where
  Name : String
  /-- Declared uncompressed size, a `uint64`. -/
  UncompressedSize64 : Nat
  deriving DecidableEq, Repr

structure ZipReader where
  File : List ZipEntry
  deriving DecidableEq, Repr

structure Response where
  StatusCode : Nat
  Body : Bytes

/-- Everything the acquirers read from their environment. -/
structure Env where
  /-- `syscall.Sysinfo`. -/
  Totalram : Nat
  /-- `runtime.NumCPU`. -/
  NumCPU : Nat
  /-- Whether `os.MkdirTemp` fails when the given number of names is in use. -/
  mkdirTempFails : Nat → Bool
  /-- Whether `ioutil.TempFile` fails when the given number of names is in use. -/
  tempFileFails : Nat → Bool
  newRequestFails : String → Bool
  urlParseFails : String → Bool
  /-- Outcome of each successive `http.DefaultClient.Do`; `none` is a transport error. -/
  responses : List (Option Response)
  copyFirstFails : Bool
  copyRestFails : Bool
  seekFails : Bool
  /-- `zip.NewReader` on the given archive bytes; `none` is a format error. -/
  parseZip : Bytes → Option ZipReader
  /-- Whether `git.Clone` returns an error. -/
  cloneFails : Bool

/-- Name handed out by `os.MkdirTemp` / `ioutil.TempFile` under `/tmp`. -/
def tempName (pfx : String) (n : Nat) : String := "/tmp/" ++ pfx ++ toString n

def osMkdirTemp (env : Env) (pfx : String) (w : World) : Option String × World :=
  if env.mkdirTempFails w.serial then (none, w)
  else
    let name := tempName pfx w.serial
    (some name, { w with dirs := name :: w.dirs, serial := w.serial + 1,
                         trace := w.trace ++ [.MkdirTemp name] })

def osTempFile (env : Env) (pfx : String) (w : World) : Option String × World :=
  if env.tempFileFails w.serial then (none, w)
  else
    let name := tempName pfx w.serial
    (some name, { w with files := name :: w.files, openFiles := name :: w.openFiles,
                         serial := w.serial + 1, trace := w.trace ++ [.TempFile name] })

def osRemoveAll (path : String) (w : World) : World :=
  { w with dirs := w.dirs.filter (fun d => d != path), trace := w.trace ++ [.RemoveAll path] }

def fileClose (name : String) (w : World) : World :=
  { w with openFiles := w.openFiles.filter (fun f => f != name), trace := w.trace ++ [.Close name] }

def osRemove (name : String) (w : World) : World :=
  { w with files := w.files.filter (fun f => f != name), trace := w.trace ++ [.Remove name] }

/-! ## gitdown/down.go -/

abbrev DownloadLocation := Int

def InMemory : DownloadLocation := 0

def InFilesystem : DownloadLocation := 1

/-- A `Storage`; the billy filesystem it holds is not part of the model. -/
structure Storage where
  location : DownloadLocation
  path : String
  deriving DecidableEq, Repr

def Storage.Close (s : Storage) (w : World) : World :=
  if s.location == InFilesystem && s.path != "" then osRemoveAll s.path w else w

/-- A Go `func()` value: an effect on the world. -/
abbrev Releaser := World → World

structure Repo where
  storeFS : Option Storage
  workFS : Option Storage
  releaser : Option Releaser

def Repo.Close (r : Repo) (w : World) : World :=
  let w := match r.storeFS with
    | some s => s.Close w
    | none => w
  let w := match r.workFS with
    | some s => s.Close w
    | none => w
  match r.releaser with
  | some f => f w
  | none => w

def createStorage (env : Env) (location : DownloadLocation) (w : World) :
    Except Error Storage × World :=
  if location = InFilesystem then
    match osMkdirTemp env "gitmon_" w with
    | (none, w) => (.error .mkdirTemp, w)
    | (some tmpPath, w) => (.ok { location := location, path := tmpPath }, w)
  else if location = InMemory then
    (.ok { location := location, path := "" }, w)
  else
    (.error .ErrInvalidLocation, w)

/-! ## gitdown/clone.go -/

structure AuthStorage where
  auths : String → Option (String × String)

structure CloneDownloader where
  gitLocation : DownloadLocation
  dataLocation : DownloadLocation
  blocking : Bool
  authStorage : Option AuthStorage

def NewCloneDownloader (gitLocation dataLocation : DownloadLocation) : CloneDownloader :=
  { gitLocation := gitLocation, dataLocation := dataLocation, blocking := false,
    authStorage := none }

/-- `CloneDownloader.Download`: the returned `(*Repo, error)` pair and the
world it leaves. -/
def CloneDownloader.Download (cd : CloneDownloader) (env : Env) (repoURL : String)
    (w : World) : (Option Repo × Option Error) × World :=
  match createStorage env cd.gitLocation w with
  | (.error err, w) => ((none, some err), w)
  | (.ok storeFS, w) =>
    match createStorage env cd.dataLocation w with
    | (.error err, w) => ((none, some err), w)
    | (.ok workFS, w) =>
      if cd.authStorage.isSome && env.urlParseFails repoURL then
        ((none, some .urlParse), w)
      else if env.cloneFails then
        ((none, some .cloning), w)
      else
        ((some { workFS := some workFS, storeFS := some storeFS, releaser := none }, none), w)

/-! ## gitdown/zip.go -/

structure ZipDownloader where
  storageLocation : DownloadLocation
  blocking : Bool
  authStorage : Option AuthStorage

def NewZipDownloader (storageLocation : DownloadLocation) : ZipDownloader :=
  { storageLocation := storageLocation, blocking := false, authStorage := none }

def StatusForbidden : Nat := 403

/-- Error values `io.ReadFull` can return when the reader itself does not fail. -/
inductive ReadErr where
  | nil
  | EOF
  | ErrUnexpectedEOF
  deriving DecidableEq, Repr

/-- Go `io.ReadFull(body, buf)` with `len(buf) = n` on a body that is read
without transport failure: the number of bytes read and the error. `EOF` when
no byte was read, `ErrUnexpectedEOF` when some but not all were. -/
def ReadFull (body : Bytes) (n : Nat) : Nat × ReadErr :=
  if n ≤ body.length then (n, .nil)
  else if body.length = 0 then (0, .EOF)
  else (body.length, .ErrUnexpectedEOF)

/-- Contents of `safeBuffer` after `io.ReadFull`: the bytes read, then zeros. -/
def safeBufferAfter (body : Bytes) (n : Nat) : Bytes :=
  body.take n ++ List.replicate (n - body.length) 0

/-- The closure `releaser` of `downloadZip` for the spool file `name`:
`fd.Close()` then `os.Remove(fd.Name())`. -/
def zipReleaser (name : String) : Releaser :=
  fun w => osRemove name (fileClose name w)

/-- What `downloadZip` returns: `(*zip.Reader, func(), error)`. -/
structure ZipResult where
  zipReader : Option ZipReader
  releaser : Option Releaser
  spool : Option String
  err : Option Error

/-- `ZipDownloader.downloadZip`. Each iteration of its `for` loop consumes one
outcome of `http.DefaultClient.Do` from `responses`; `none` is returned when
the loop is still retrying after the last of them. `spool` names the
temporary file behind `releaser`. -/
def ZipDownloader.downloadZip (d : ZipDownloader) (env : Env) (zipURL : String)
    (maxInMemory : Nat) : List (Option Response) → World → Option (ZipResult × World)
  | [], _ => none
  | resp :: rest, w =>
    if env.newRequestFails zipURL then
      some ({ zipReader := none, releaser := none, spool := none, err := some .newRequest }, w)
    else if d.authStorage.isSome && env.urlParseFails zipURL then
      some ({ zipReader := none, releaser := none, spool := none, err := some .urlParse }, w)
    else
      match resp with
      | none =>
        some ({ zipReader := none, releaser := none, spool := none, err := some .transport }, w)
      | some r =>
        if r.StatusCode == StatusForbidden && d.blocking then
          d.downloadZip env zipURL maxInMemory rest w
        else
          let safeBuffer := safeBufferAfter r.Body maxInMemory
          let (nread, err) := ReadFull r.Body maxInMemory
          if err = .ErrUnexpectedEOF then
            match env.parseZip (safeBuffer.take nread) with
            | none =>
              some ({ zipReader := none, releaser := none, spool := none,
                      err := some .zipFormat }, w)
            | some zipReader =>
              some ({ zipReader := some zipReader, releaser := none, spool := none,
                      err := none }, w)
          else
            match osTempFile env "gitmon_zip_" w with
            | (none, w) =>
              some ({ zipReader := none, releaser := none, spool := none,
                      err := some .tempFile }, w)
            | (some fd, w) =>
              let releaser := zipReleaser fd
              if env.copyFirstFails then
                some ({ zipReader := none, releaser := some releaser, spool := some fd,
                        err := some .copy }, w)
              else if env.copyRestFails then
                some ({ zipReader := none, releaser := some releaser, spool := some fd,
                        err := some .copy }, w)
              else if env.seekFails then
                some ({ zipReader := none, releaser := some releaser, spool := some fd,
                        err := some .seek }, w)
              else
                match env.parseZip (safeBuffer ++ r.Body.drop maxInMemory) with
                | none =>
                  some ({ zipReader := none, releaser := some releaser, spool := some fd,
                          err := some .zipFormat }, w)
                | some zipReader =>
                  some ({ zipReader := some zipReader, releaser := some releaser,
                          spool := some fd, err := none }, w)

/-- The threshold `maxZipFileSize` of `ZipDownloader.Download`, in `uint64`
arithmetic; `NumCPU` is at least 1. -/
def maxZipFileSize (env : Env) : Nat :=
  let maxRamCore := ((env.Totalram / 10 * 7) % u64) / env.NumCPU
  maxRamCore / 5

/-- The threshold `maxZipUncompressedSize` of `ZipDownloader.Download`. -/
def maxZipUncompressedSize (env : Env) : Nat := (maxZipFileSize env * 4) % u64

/-- The loop `size += entry.UncompressedSize64` over `zipFile.File`, in
`uint64`. -/
def totalSize (z : ZipReader) : Nat :=
  z.File.foldl (fun size entry => addU64 size entry.UncompressedSize64) 0

/-- The choice `d.storageLocation = ...` made by `ZipDownloader.Download` once
the archive is parsed. -/
def chooseLocation (env : Env) (z : ZipReader) : DownloadLocation :=
  if totalSize z > maxZipUncompressedSize env then InFilesystem else InMemory

/-- `ZipDownloader.Download`: the returned `(*Repo, error)` pair, the
downloader (whose `storageLocation` it assigns) and the world. `none` when
`downloadZip` never returns. The copying of the entries into the new
storage's filesystem changes neither the result nor the temporary
directories and is not modelled. -/
def ZipDownloader.Download (d : ZipDownloader) (env : Env) (repoURL : String) (w : World) :
    Option ((Option Repo × Option Error) × ZipDownloader × World) :=
  match d.downloadZip env repoURL (maxZipFileSize env) env.responses w with
  | none => none
  | some (res, w) =>
    match res.err, res.zipReader with
    | some err, _ =>
      let w := match res.releaser with
        | some releaser => releaser w
        | none => w
      some ((none, some err), d, w)
    | none, none => none
    | none, some zipFile =>
      let d := { d with storageLocation := chooseLocation env zipFile }
      match createStorage env d.storageLocation w with
      | (.error err, w) =>
        let w := match res.releaser with
          | some releaser => releaser w
          | none => w
        some ((none, some err), d, w)
      | (.ok storage, w) =>
        some ((some { workFS := some storage, storeFS := none, releaser := res.releaser },
               none), d, w)


/-! ## grep/hyperscan.go: construction of the matcher -/

/-- Hyperscan compile flags (`HS_FLAG_*`), as bit masks. -/
abbrev CompileFlag := Nat

def Caseless : CompileFlag := 1

def DotAll : CompileFlag := 2

def MultiLine : CompileFlag := 4

def SingleMatch : CompileFlag := 8

def AllowEmpty : CompileFlag := 16

def Utf8Mode : CompileFlag := 32

def UnicodeProperty : CompileFlag := 64

def PrefilterMode : CompileFlag := 128

def SomLeftMost : CompileFlag := 256

def Combination : CompileFlag := 512

def Quiet : CompileFlag := 1024

/-- The flag a character stands for in gohs `hyperscan.ParseCompileFlag`. -/
def compileFlagOf (c : Char) : Option CompileFlag :=
  if c = 'i' then some Caseless
  else if c = 's' then some DotAll
  else if c = 'm' then some MultiLine
  else if c = 'H' then some SingleMatch
  else if c = 'V' then some AllowEmpty
  else if c = '8' then some Utf8Mode
  else if c = 'W' then some UnicodeProperty
  else if c = 'P' then some PrefilterMode
  else if c = 'L' then some SomLeftMost
  else if c = 'C' then some Combination
  else if c = 'Q' then some Quiet
  else none

/-- gohs `hyperscan.ParseCompileFlag`: the union of the flags of the
characters of `s`; `none` is the error for an unknown character. -/
def ParseCompileFlag (s : String) : Option CompileFlag :=
  s.toList.foldlM (fun flags c => (compileFlagOf c).map (fun f => flags ||| f)) 0

def hasFlag (flags bit : CompileFlag) : Bool := flags &&& bit != 0

/-- A `hyperscan.Pattern`. -/
structure Pattern where
  Expression : String
  Flags : CompileFlag
  Id : Nat
  deriving DecidableEq, Repr

inductive HsError where
  | compileFlag
  | invalidExpression (m : String)
  | database
  | scratch
  deriving DecidableEq, Repr

/-- What `NewHyperscanGrepper` gets from the Hyperscan library. -/
structure HsEnv where
  /-- Whether `p.Info()` fails on the expression. -/
  exprInvalid : String → Bool
  databaseFails : Bool
  scratchFails : Bool
  /-- The block database compiled from the patterns: the callbacks a scan of
  a block delivers, and whether the scan ends with an error. -/
  engine : List Pattern → Bytes → List MatchEvent × Bool

/-- The loop `for i, m := range matches` of `NewHyperscanGrepper`. -/
def compileLoop (env : HsEnv) (compileflag : CompileFlag) :
    List String → Nat → List Pattern → (Nat → Option String) →
      Except HsError (List Pattern × (Nat → Option String))
  | [], _, patterns, patternMap => .ok (patterns, patternMap)
  | m :: ms, i, patterns, patternMap =>
    if env.exprInvalid m then .error (.invalidExpression m)
    else
      compileLoop env compileflag ms (i + 1)
        (patterns ++ [{ Expression := m, Flags := compileflag, Id := i }])
        (fun id => if id = i then some m else patternMap id)

/-- The patterns and the pattern map `NewHyperscanGrepper` builds before it
compiles the database. -/
def compilePatterns (env : HsEnv) (matches_ : List String) :
    Except HsError (List Pattern × (Nat → Option String)) :=
  match ParseCompileFlag "L" with
  | none => .error .compileFlag
  | some compileflag => compileLoop env compileflag matches_ 0 [] (fun _ => none)

def NewHyperscanGrepper (env : HsEnv) (matches_ : List String) :
    Except HsError HyperscanGrepper :=
  match compilePatterns env matches_ with
  | .error err => .error err
  | .ok (patterns, patternMap) =>
    if env.databaseFails then .error .database
    else if env.scratchFails then .error .scratch
    else .ok { scan := env.engine patterns, patternMap := patternMap }

/-- The Hyperscan pattern `MatchList.doSet` of cmd/gitgrep/main.go appends to
`hsMatchers`. -/
def doSetPattern (value : String) : Pattern :=
  { Expression := value, Flags := Caseless ||| MultiLine ||| SomLeftMost, Id := 0 }

/-! ## grep/util.go -/

structure FileInfo where
  Name : String
  IsDir : Bool
  deriving DecidableEq, Repr

/-- The part of `billy.Filesystem` the walk uses; `none` is an error. -/
structure BillyFS where
  Lstat : String → Option FileInfo
  ReadDir : String → Option (List FileInfo)

/-- What a walk function returns: nil, `filepath.SkipDir` or another error. -/
inductive WalkErr where
  | nil
  | SkipDir
  | other
  deriving DecidableEq, Repr

/-- A `filepath.WalkFunc` together with the state it closes over: it gets the
path, the info (`none` is nil) and whether the error argument is non-nil. -/
abbrev WalkFunc (σ : Type) := String → Option FileInfo → Bool → σ → WalkErr × σ

/-- The elements of a path between its separators. -/
def splitSlash : List Char → List (List Char)
  | [] => [[]]
  | c :: cs =>
    if c = '/' then [] :: splitSlash cs
    else
      match splitSlash cs with
      | [] => [[c]]
      | x :: xs => (c :: x) :: xs

/-- The lexical processing of Go `filepath.Clean` on the elements of a path
that are neither empty nor `.`: an inner `..` removes the element before it,
a `..` that begins a rooted path is dropped, other `..` are kept. `stack`
holds the elements kept so far, last first. -/
def cleanStack (rooted : Bool) : List (List Char) → List (List Char) → List (List Char)
  | [], stack => stack.reverse
  | c :: cs, stack =>
    if c = ['.', '.'] then
      match stack with
      | top :: below =>
        if top = ['.', '.'] then cleanStack rooted cs (c :: stack)
        else cleanStack rooted cs below
      | [] => if rooted then cleanStack rooted cs [] else cleanStack rooted cs [c]
    else cleanStack rooted cs (c :: stack)

/-- Go `filepath.Clean` with separator `/`: repeated separators and `.`
elements are removed, `..` elements are resolved, and the empty result is
`.`. -/
def Clean (path : String) : String :=
  let rooted := path.toList.head? == some '/'
  let elems := (splitSlash path.toList).filter (fun e => e != [] && e != ['.'])
  let kept := List.intercalate ['/'] (cleanStack rooted elems [])
  let out := if rooted then '/' :: kept else kept
  if out = [] then "." else String.mk out

/-- Go `filepath.Join` of two elements: the non-empty elements joined by the
separator, cleaned; the empty string when both are empty. -/
def Join (path name : String) : String :=
  if path ≠ "" then Clean (path ++ "/" ++ name)
  else if name ≠ "" then Clean name
  else ""

def readdirnames (fs : BillyFS) (dir : String) : Option (List String) :=
  match fs.ReadDir dir with
  | none => none
  | some files => some (files.map (fun file => file.Name))

/-- The loop `for _, name := range names` of `walk`; `walkRec` is the
recursive call. -/
def walkNames {σ : Type} (fs : BillyFS) (walkFn : WalkFunc σ)
    (walkRec : String → FileInfo → σ → Option (WalkErr × σ)) (path : String) :
    List String → σ → Option (WalkErr × σ)
  | [], st => some (.nil, st)
  | name :: rest, st =>
    let filename := Join path name
    match fs.Lstat filename with
    | none =>
      let r := walkFn filename none true st
      if r.1 ≠ .nil ∧ r.1 ≠ .SkipDir then some r
      else walkNames fs walkFn walkRec path rest r.2
    | some fileInfo =>
      match walkRec filename fileInfo st with
      | none => none
      | some r =>
        if r.1 ≠ .nil then
          if !fileInfo.IsDir || r.1 ≠ .SkipDir then some r
          else walkNames fs walkFn walkRec path rest r.2
        else walkNames fs walkFn walkRec path rest r.2

/-- `walk` of grep/util.go; the first argument bounds the depth of the
recursion and `none` means it was not enough. -/
def walk {σ : Type} (fs : BillyFS) (walkFn : WalkFunc σ) :
    Nat → String → FileInfo → σ → Option (WalkErr × σ)
  | 0, _, _, _ => none
  | fuel + 1, path, info, st =>
    if !info.IsDir then some (walkFn path (some info) false st)
    else
      let names := readdirnames fs path
      let r := walkFn path (some info) names.isNone st
      match names with
      | none => some r
      | some names =>
        if r.1 ≠ .nil then some r
        else walkNames fs walkFn (walk fs walkFn fuel) path names r.2

def WalkBilly {σ : Type} (fs : BillyFS) (root : String) (walkFn : WalkFunc σ) (fuel : Nat)
    (st : σ) : Option (WalkErr × σ) :=
  let r := match fs.Lstat root with
    | none => some (walkFn root none true st)
    | some info => walk fs walkFn fuel root info st
  match r with
  | none => none
  | some (err, st) => if err = .SkipDir then some (.nil, st) else some (err, st)

/-! ## Specification-side definitions -/

/-- `s` is one past the position of the last newline strictly before `from_`,
or 0 when there is none. -/
def IsLineStart (inputData : Bytes) (from_ s : Nat) : Prop :=
  s ≤ from_ ∧ (s = 0 ∨ inputData[s - 1]? = some newline) ∧
    ∀ i < from_, s ≤ i → inputData[i]? ≠ some newline

/-- `q` is the position of the first newline at or after `to_`, or the length
of the buffer when there is none. -/
def IsLineEnd (inputData : Bytes) (to_ q : Nat) : Prop :=
  to_ ≤ q ∧ q ≤ inputData.length ∧ (q = inputData.length ∨ inputData[q]? = some newline) ∧
    ∀ i < q, to_ ≤ i → inputData[i]? ≠ some newline

/-- Two consecutive results belong to the same run: they share the pattern
identifier and the matched text does not get shorter. -/
def sameGrowingRun (a b : Result) : Bool :=
  a.PatternID == b.PatternID && decide (a.Content.length ≤ b.Content.length)

/-- The deduplication loop as a recursion over the list: an element is kept
when it is the last one or the loop condition holds for it and its
successor. -/
def dedupRec : List Result → List Result
  | [] => []
  | [x] => [x]
  | x :: y :: rest =>
    if y.PatternID != x.PatternID ||
        (decide (y.Content.length < x.Content.length) && y.PatternID == x.PatternID)
    then x :: dedupRec (y :: rest) else dedupRec (y :: rest)

/-- The world keeps its temporary names: `f` only filters the directories,
files and open descriptors, by predicates that do not depend on the world. -/
def OnlyRemoves (f : World → World) : Prop :=
  ∃ P Q R : String → Bool, ∀ w : World,
    (f w).dirs = w.dirs.filter P ∧ (f w).files = w.files.filter Q ∧
    (f w).openFiles = w.openFiles.filter R ∧ (f w).serial = w.serial

/-- A finite filesystem tree; the children of a directory are in the order
in which `ReadDir` lists them. -/
inductive Tree where
  | file (name : String)
  | dir (name : String) (children : List Tree)

def Tree.info : Tree → FileInfo
  | .file name => { Name := name, IsDir := false }
  | .dir name _ => { Name := name, IsDir := true }

mutual
/-- The entries of the tree placed at `path` in pre-order: a directory, then
its children, each with its subtree, in their order. -/
def Tree.calls (path : String) : Tree → List (String × FileInfo)
  | .file name => [(path, { Name := name, IsDir := false })]
  | .dir name children => (path, { Name := name, IsDir := true }) :: Tree.callsList path children
/-- The pre-order of the children of the directory at `path`. -/
def Tree.callsList (path : String) : List Tree → List (String × FileInfo)
  | [] => []
  | c :: cs => Tree.calls (Join path c.info.Name) c ++ Tree.callsList path cs
end

mutual
/-- Number of entries of the tree. -/
def Tree.size : Tree → Nat
  | .file _ => 1
  | .dir _ children => Tree.sizeList children + 1
/-- Number of entries of a list of trees. -/
def Tree.sizeList : List Tree → Nat
  | [] => 0
  | c :: cs => Tree.size c + Tree.sizeList cs
end

mutual
/-- Number of levels of the tree. -/
def Tree.height : Tree → Nat
  | .file _ => 1
  | .dir _ children => Tree.heightList children + 1
/-- Largest number of levels in a list of trees. -/
def Tree.heightList : List Tree → Nat
  | [] => 0
  | c :: cs => max (Tree.height c) (Tree.heightList cs)
end

mutual
/-- The filesystem holds the tree at `path`: every directory of the tree can
be listed and lists its children, and every entry can be stat'ed. -/
def Represents (fs : BillyFS) (path : String) : Tree → Prop
  | .file _ => True
  | .dir _ children =>
    fs.ReadDir path = some (children.map Tree.info) ∧ RepresentsList fs path children
/-- The filesystem holds the given children of the directory at `path`. -/
def RepresentsList (fs : BillyFS) (path : String) : List Tree → Prop
  | [] => True
  | c :: cs =>
    fs.Lstat (Join path c.info.Name) = some c.info ∧
      Represents fs (Join path c.info.Name) c ∧ RepresentsList fs path cs
end

/-- The state after the walk function was invoked, with a nil error, on the
given entries in turn. -/
def runCalls {σ : Type} (walkFn : WalkFunc σ) (calls : List (String × FileInfo)) (st : σ) : σ :=
  calls.foldl (fun st c => (walkFn c.1 (some c.2) false st).2) st

/-! ## Example inputs -/

/-- A matcher compiled from the pattern `API_KEY\s*[:=]\s*`, on blocks that
start with `API_KEY=` followed by a letter: the engine reports the one match
`[0, 8)` of pattern 0. -/
def exampleGrepper : HyperscanGrepper :=
  { scan := fun content =>
      if (utf8 "API_KEY=").isPrefixOf content then ([⟨0, 0, 8⟩], false) else ([], false)
    patternMap := fun id => if id = 0 then some "API_KEY\\s*[:=]\\s*" else none }

/-- A walk over two files with the same content. -/
def exampleWalk : List WalkEntry :=
  [⟨"/a.env", false, false, some (utf8 "API_KEY=abc")⟩,
   ⟨"/b.env", false, false, some (utf8 "API_KEY=abc")⟩]

def emptyWorld : World :=
  { dirs := [], files := [], openFiles := [], serial := 0, trace := [] }

/-- An archive with two entries that each declare `2^63` uncompressed bytes. -/
def wrapArchive : ZipReader := { File := [⟨"a", 2 ^ 63⟩, ⟨"b", 2 ^ 63⟩] }

/-- A machine with 16 GiB of memory and 8 cores on which nothing fails; the
server answers 200 with `body`, which parses as the archive `z`. -/
def exampleEnv (body : Bytes) (z : ZipReader) : Env :=
  { Totalram := 17179869184
    NumCPU := 8
    mkdirTempFails := fun _ => false
    tempFileFails := fun _ => false
    newRequestFails := fun _ => false
    urlParseFails := fun _ => false
    responses := [some { StatusCode := 200, Body := body }]
    copyFirstFails := false
    copyRestFails := false
    seekFails := false
    parseZip := fun _ => some z
    cloneFails := false }

/-- The same machine when `git.Clone` fails. -/
def failingCloneEnv : Env := { exampleEnv [] { File := [] } with cloneFails := true }

/-- A repository as `ZipDownloader.Download` returns it for a spooled archive
extracted to disk. -/
def exampleRepo : Repo :=
  { storeFS := none
    workFS := some { location := InFilesystem, path := "/tmp/gitmon_1" }
    releaser := some (zipReleaser "/tmp/gitmon_zip_0") }

def exampleRepoWorld : World :=
  { dirs := ["/tmp/gitmon_1"], files := ["/tmp/gitmon_zip_0"],
    openFiles := ["/tmp/gitmon_zip_0"], serial := 2, trace := [] }

/-- An archive with one entry of 5 declared bytes. -/
def smallArchive : ZipReader := { File := [⟨"README.md", 5⟩] }

/-- The empty archive: the 22-byte end-of-central-directory record alone. -/
def emptyArchiveBytes : Bytes := [80, 75, 5, 6] ++ List.replicate 18 0

/-- A stand-in for `zip.NewReader` on the example bodies: it accepts the empty
archive and rejects every other input, the inputs shorter than the
end-of-central-directory record among them. -/
def emptyArchiveParser : Bytes → Option ZipReader :=
  fun b => if b = emptyArchiveBytes then some { File := [] } else none

/-- The example machine when the server answers 404 with the empty archive as
body. -/
def notFoundEnv : Env :=
  { exampleEnv emptyArchiveBytes { File := [] } with
    responses := [some { StatusCode := 404, Body := emptyArchiveBytes }]
    parseZip := emptyArchiveParser }

/-- The example machine when the server answers 404 with a 4-byte body. -/
def notFoundShortEnv : Env :=
  { exampleEnv [80, 75, 3, 4] { File := [] } with
    responses := [some { StatusCode := 404, Body := [80, 75, 3, 4] }]
    parseZip := emptyArchiveParser }

/-- A stand-in for the engine on literal expressions: lower-case form of an
ASCII letter. -/
def foldCase (b : UInt8) : UInt8 := if 65 ≤ b.toNat ∧ b.toNat ≤ 90 then b + 32 else b

/-- Whether the literal occurs in the input at offset `i`, up to case when
`caseless`. -/
def literalOccursAt (caseless : Bool) (lit input : Bytes) (i : Nat) : Bool :=
  let window := (input.drop i).take lit.length
  if caseless then window.map foldCase == lit.map foldCase else window == lit

/-- A stand-in for the Hyperscan engine on patterns that are literals: one
callback per occurrence, compared up to case exactly for the patterns that
carry the `Caseless` flag. -/
def literalEngine (patterns : List Pattern) (input : Bytes) : List MatchEvent × Bool :=
  ((List.range input.length).flatMap (fun i => patterns.filterMap (fun p =>
      if literalOccursAt (hasFlag p.Flags Caseless) (utf8 p.Expression) input i then
        some { id := p.Id, from_ := i, to_ := i + (utf8 p.Expression).length }
      else none)),
   false)

def literalEnv : HsEnv :=
  { exprInvalid := fun _ => false, databaseFails := false, scratchFails := false,
    engine := literalEngine }

/-- A walk over one file that holds the key in lower case. -/
def lowerCaseWalk : List WalkEntry :=
  [⟨"/secrets.env", false, false, some (utf8 "api_key=abcdef123")⟩]

/-- A filesystem whose `ReadDir` lists the root as `b`, `a`. -/
def unsortedFS : BillyFS :=
  { Lstat := fun p =>
      if p = "/" then some ⟨"/", true⟩
      else if p = "/a" then some ⟨"a", false⟩
      else if p = "/b" then some ⟨"b", false⟩
      else none
    ReadDir := fun p => if p = "/" then some [⟨"b", false⟩, ⟨"a", false⟩] else none }

def unsortedTree : Tree := .dir "/" [.file "b", .file "a"]

/-- A filesystem with a directory `docs` holding `a.md`, and a file `main.go`. -/
def exampleFS : BillyFS :=
  { Lstat := fun p =>
      if p = "/" then some ⟨"/", true⟩
      else if p = "/docs" then some ⟨"docs", true⟩
      else if p = "/docs/a.md" then some ⟨"a.md", false⟩
      else if p = "/main.go" then some ⟨"main.go", false⟩
      else none
    ReadDir := fun p =>
      if p = "/" then some [⟨"docs", true⟩, ⟨"main.go", false⟩]
      else if p = "/docs" then some [⟨"a.md", false⟩]
      else none }

def exampleTree : Tree := .dir "/" [.dir "docs" [.file "a.md"], .file "main.go"]

/-- A walk function that records the paths it is given and returns nil. -/
def recordVisit : WalkFunc (List String) := fun path _ _ st => (.nil, st ++ [path])

/-! ## Filters -/

theorem HasSuffix_iff (s suffix : String) :
    HasSuffix s suffix = true ↔ suffix.toList <:+ s.toList := by
  unfold HasSuffix
  simp only [Bool.and_eq_true, decide_eq_true_eq, beq_iff_eq, String.length]
  constructor
  · rintro ⟨_, h⟩
    rw [← h]
    exact List.drop_suffix _ _
  · intro h
    refine ⟨h.length_le, ?_⟩
    exact (List.suffix_iff_eq_drop.mp h).symm

theorem fileHasAnyExtension_go_iff (path : String) (exts : List String) :
    ExtensionFilterOption.fileHasAnyExtension.go path exts = true ↔
      ∃ e ∈ exts, e.toList <:+ path.toList := by
  induction exts with
  | nil => simp [ExtensionFilterOption.fileHasAnyExtension.go]
  | cons e es ih =>
    unfold ExtensionFilterOption.fileHasAnyExtension.go
    by_cases h : HasSuffix path e = true
    · simp only [h, if_true, true_iff]
      exact ⟨e, List.mem_cons_self _ _, (HasSuffix_iff _ _).mp h⟩
    · have h2 : ¬ e.data <:+ path.data := fun hh => h ((HasSuffix_iff _ _).mpr hh)
      simp [h, ih, h2]

theorem printable_foldl (data : Bytes) (k : Nat) (hk : k ≤ data.length) :
    (List.range k).foldl
      (fun (n : Int) i => match data[i]? with
        | some b => if IsPrint b.toNat then n + 1 else n
        | none => n) 0
      = ((data.take k).countP (fun b => IsPrint b.toNat) : Nat) := by
  induction k with
  | zero => simp
  | succ k ih =>
    have hk2 : k < data.length := hk
    rw [List.range_succ, List.foldl_append, ih (Nat.le_of_lt hk2), List.take_succ]
    simp only [List.foldl_cons, List.foldl_nil, List.getElem?_eq_getElem hk2, Option.toList_some,
      List.countP_append, List.countP_cons, List.countP_nil]
    split <;> simp_all


theorem printableCb_iff (data : Bytes) :
    printableCb data = true ↔ 48 ≤ (data.take 64).countP (fun b => IsPrint b.toNat) := by
  unfold printableCb MinInt checkSize neededPrintable
  simp only [decide_eq_true_eq, ge_iff_le]
  by_cases h : (data.length : Int) ≤ 64
  · have h2 : data.length ≤ 64 := by omega
    rw [if_pos h, Int.toNat_ofNat, printable_foldl data data.length (Nat.le_refl _)]
    rw [List.take_of_length_le (Nat.le_refl _), List.take_of_length_le h2]
    omega
  · have h2 : 64 ≤ data.length := by omega
    rw [if_neg h]
    have h3 : (64 : Int).toNat = 64 := rfl
    rw [h3, printable_foldl data 64 h2]
    omega

/-- C6 (what the code does): the printable-content filter skips a file
exactly when at least 48 of its first 64 bytes are printable, so a file of 64
printable bytes is skipped and a file of 64 zero bytes is scanned. -/
theorem C6_printable_content_polarity :
    (∀ data : Bytes, WithPrintableContent.SkipFileContent data = true ↔
      48 ≤ (data.take 64).countP (fun b => IsPrint b.toNat)) ∧
    WithPrintableContent.SkipFileContent (List.replicate 64 97) = true ∧
    WithPrintableContent.SkipFileContent (List.replicate 64 0) = false ∧
    WithPrintableContent.SkipFileContent (utf8 "package main") = false := by
  refine ⟨fun data => printableCb_iff data, ?_, ?_, ?_⟩ <;> decide

/-- C1 (what the code does): the filter built by `WithFileExtensions` skips a
path exactly when it ends with one of the extensions, and the filter built by
`WithExcludedFileExtensions` skips it exactly when it ends with none; so
`WithFileExtensions(".go")` skips `main.go` and keeps `main.py`, and
`WithExcludedFileExtensions(".go")` keeps `main.go` and skips `main.py`. -/
theorem C1_extension_filter_polarity :
    (∀ (exts : List String) (path : String),
      (WithFileExtensions exts).SkipFile path = true ↔
        ∃ e ∈ exts, e.toList <:+ path.toList) ∧
    (∀ (exts : List String) (path : String),
      (WithExcludedFileExtensions exts).SkipFile path = true ↔
        ¬ ∃ e ∈ exts, e.toList <:+ path.toList) ∧
    (WithFileExtensions [".go"]).SkipFile "main.go" = true ∧
    (WithFileExtensions [".go"]).SkipFile "main.py" = false ∧
    (WithExcludedFileExtensions [".go"]).SkipFile "main.go" = false ∧
    (WithExcludedFileExtensions [".go"]).SkipFile "main.py" = true := by
  refine ⟨?_, ?_, by decide, by decide, by decide, by decide⟩
  · intro exts path
    simp only [WithFileExtensions, GrepOption.SkipFile, ExtensionFilterOption.fileHasAnyExtension,
      bne_iff_ne, ne_eq, Bool.not_eq_false]
    exact fileHasAnyExtension_go_iff path exts
  · intro exts path
    simp only [WithExcludedFileExtensions, GrepOption.SkipFile,
      ExtensionFilterOption.fileHasAnyExtension, bne_iff_ne, ne_eq]
    rw [← fileHasAnyExtension_go_iff path exts]


/-! ## The context window of the match handler -/

theorem LastIndexByte_spec (b : Bytes) (c : UInt8) :
    (LastIndexByte b c = -1 ∧ ∀ i : Nat, b[i]? ≠ some c) ∨
    (∃ k : Nat, LastIndexByte b c = (k : Int) ∧ b[k]? = some c ∧
      ∀ i : Nat, k < i → b[i]? ≠ some c) := by
  induction b with
  | nil => left; simp [LastIndexByte]
  | cons x xs ih =>
    unfold LastIndexByte
    rcases ih with ⟨h1, h2⟩ | ⟨k, h1, h2, h3⟩
    · by_cases hx : x = c
      · right
        refine ⟨0, by simp [h1, hx], by simp [hx], ?_⟩
        intro i hi
        obtain ⟨j, rfl⟩ : ∃ j, i = j + 1 := ⟨i - 1, by omega⟩
        simpa using h2 j
      · left
        refine ⟨by simp [h1, hx], ?_⟩
        intro i
        cases i with
        | zero => simpa using hx
        | succ j => simpa using h2 j
    · right
      refine ⟨k + 1, ?_, by simpa using h2, ?_⟩
      · have : (k : Int) ≠ -1 := by omega
        simp [h1, this]
      · intro i hi
        obtain ⟨j, rfl⟩ : ∃ j, i = j + 1 := ⟨i - 1, by omega⟩
        simpa using h3 j (by omega)

theorem IndexByte_spec (b : Bytes) (c : UInt8) :
    (IndexByte b c = -1 ∧ ∀ i : Nat, b[i]? ≠ some c) ∨
    (∃ k : Nat, IndexByte b c = (k : Int) ∧ b[k]? = some c ∧
      ∀ i : Nat, i < k → b[i]? ≠ some c) := by
  induction b with
  | nil => left; simp [IndexByte]
  | cons x xs ih =>
    unfold IndexByte
    by_cases hx : x = c
    · right
      exact ⟨0, by simp [hx], by simp [hx], fun i hi => absurd hi (Nat.not_lt_zero i)⟩
    · rcases ih with ⟨h1, h2⟩ | ⟨k, h1, h2, h3⟩
      · left
        refine ⟨by simp [h1, hx], ?_⟩
        intro i
        cases i with
        | zero => simpa using hx
        | succ j => simpa using h2 j
      · right
        refine ⟨k + 1, ?_, by simpa using h2, ?_⟩
        · have : (k : Int) ≠ -1 := by omega
          simp [h1, hx, this]
        · intro i hi
          cases i with
          | zero => simpa using hx
          | succ j => simpa using h3 j (by omega)


theorem u64_eq : u64 = 18446744073709551616 := by norm_num [u64]

/-- Value of the window in terms of the two byte searches, when the span lies
in the buffer. -/
theorem lineWindow_eq (inputData : Bytes) (from_ to_ : Nat)
    (h1 : from_ ≤ inputData.length) (h2 : to_ ≤ inputData.length) :
    lineWindow inputData from_ to_ =
      some
        (let lineStart :=
          if LastIndexByte (inputData.take from_) newline == -1 then 0
          else addU64 (LastIndexByte (inputData.take from_) newline).toNat 1
         if subU64 from_ lineStart > maxLineDelta then
           (if subU64 from_ maxLineDelta < 0 then 0 else subU64 from_ maxLineDelta)
         else lineStart,
         let lineEnd :=
          if IndexByte (inputData.drop to_) newline == -1 then subU64 inputData.length 1
          else addU64 to_ (IndexByte (inputData.drop to_) newline).toNat
         if subU64 lineEnd to_ > maxLineDelta then
           (if addU64 to_ maxLineDelta ≥ inputData.length then subU64 inputData.length 1
            else addU64 to_ maxLineDelta)
         else lineEnd) := by
  have ha : slice inputData 0 from_ = some (inputData.take from_) := by
    simp [slice, h1]
  have hb : slice inputData to_ inputData.length = some (inputData.drop to_) := by
    simp [slice, h2]
  simp only [lineWindow, ha, hb, Option.bind_eq_bind, Option.some_bind, Option.pure_def]


theorem lineStart_expr (inputData : Bytes) (from_ s : Nat)
    (hlen : from_ < 2 ^ 63) (hs : IsLineStart inputData from_ s) :
    (let lineStart :=
      if LastIndexByte (inputData.take from_) newline == -1 then 0
      else addU64 (LastIndexByte (inputData.take from_) newline).toNat 1
     if subU64 from_ lineStart > maxLineDelta then
       (if subU64 from_ maxLineDelta < 0 then 0 else subU64 from_ maxLineDelta)
     else lineStart) = max s (from_ - 32) := by
  obtain ⟨hs1, hs2, hs3⟩ := hs
  have hu := u64_eq
  rcases LastIndexByte_spec (inputData.take from_) newline with ⟨e, hall⟩ | ⟨k, e, hk, hall⟩
  · have hs0 : s = 0 := by
      rcases hs2 with h | h
      · exact h
      · by_contra hne
        have := hall (s - 1)
        rw [List.getElem?_take_of_lt (by omega)] at this
        exact this h
    subst hs0
    simp only [e, beq_self_eq_true, if_true, subU64, addU64, maxLineDelta, hu]
    split_ifs <;> omega
  · have hkf : k < from_ := by
      by_contra hne
      rw [List.getElem?_take_eq_none (by omega)] at hk
      exact absurd hk (by simp)
    rw [List.getElem?_take_of_lt hkf] at hk
    have hsk : s = k + 1 := by
      have hks : k < s := by
        by_contra hne
        exact hs3 k hkf (by omega) hk
      rcases hs2 with h | h
      · omega
      · by_contra hne
        have := hall (s - 1) (by omega)
        rw [List.getElem?_take_of_lt (by omega)] at this
        exact this h
    subst hsk
    have hne : ((k : Int) == -1) = false := by
      rw [beq_eq_false_iff_ne]; omega
    simp only [e, hne, Int.toNat_ofNat, subU64, addU64, maxLineDelta, hu]
    have h63 : (2 : Nat) ^ 63 = 9223372036854775808 := by norm_num
    simp only [Bool.false_eq_true, if_false]
    split_ifs <;> omega


theorem lineEnd_expr (inputData : Bytes) (to_ q : Nat) (hpos : 0 < inputData.length)
    (hlen : inputData.length < 2 ^ 63) (hq : IsLineEnd inputData to_ q) :
    (let lineEnd :=
      if IndexByte (inputData.drop to_) newline == -1 then subU64 inputData.length 1
      else addU64 to_ (IndexByte (inputData.drop to_) newline).toNat
     if subU64 lineEnd to_ > maxLineDelta then
       (if addU64 to_ maxLineDelta ≥ inputData.length then subU64 inputData.length 1
        else addU64 to_ maxLineDelta)
     else lineEnd) =
      if q = inputData.length then min (inputData.length - 1) (to_ + 32) else min q (to_ + 32) := by
  obtain ⟨hq1, hq2, hq3, hq4⟩ := hq
  have hu := u64_eq
  have h63 : (2 : Nat) ^ 63 = 9223372036854775808 := by norm_num
  rcases IndexByte_spec (inputData.drop to_) newline with ⟨e, hall⟩ | ⟨k, e, hk, hall⟩
  · have hql : q = inputData.length := by
      rcases hq3 with h | h
      · exact h
      · exfalso
        have := hall (q - to_)
        rw [List.getElem?_drop] at this
        have hh : to_ + (q - to_) = q := by omega
        rw [hh] at this
        exact this h
    simp only [e, beq_self_eq_true, if_true, subU64, addU64, maxLineDelta, hu, hql]
    split_ifs <;> omega
  · rw [List.getElem?_drop] at hk
    have hkl : to_ + k < inputData.length := by
      by_contra hne
      rw [List.getElem?_eq_none (by omega)] at hk
      exact absurd hk (by simp)
    have hqk : q = to_ + k := by
      have hle : q ≤ to_ + k := by
        by_contra hne
        exact hq4 (to_ + k) (by omega) (by omega) hk
      rcases hq3 with h | h
      · omega
      · by_contra hne
        have := hall (q - to_) (by omega)
        rw [List.getElem?_drop] at this
        have hh : to_ + (q - to_) = q := by omega
        rw [hh] at this
        exact this h
    have hne : ((k : Int) == -1) = false := by
      rw [beq_eq_false_iff_ne]; omega
    have hql : ¬ q = inputData.length := by omega
    simp only [e, hne, Int.toNat_ofNat, subU64, addU64, maxLineDelta, hu, hql,
      Bool.false_eq_true, if_false]
    split_ifs <;> omega

theorem exists_lineStart (inputData : Bytes) (from_ : Nat) :
    ∃ s, IsLineStart inputData from_ s := by
  rcases LastIndexByte_spec (inputData.take from_) newline with ⟨_, hall⟩ | ⟨k, _, hk, hall⟩
  · refine ⟨0, Nat.zero_le _, Or.inl rfl, ?_⟩
    intro i hi _
    have := hall i
    rwa [List.getElem?_take_of_lt hi] at this
  · have hkf : k < from_ := by
      by_contra hne
      rw [List.getElem?_take_eq_none (by omega)] at hk
      exact absurd hk (by simp)
    rw [List.getElem?_take_of_lt hkf] at hk
    refine ⟨k + 1, hkf, Or.inr (by simpa using hk), ?_⟩
    intro i hi hki
    have := hall i (by omega)
    rwa [List.getElem?_take_of_lt hi] at this

theorem exists_lineEnd (inputData : Bytes) (to_ : Nat) (h : to_ ≤ inputData.length) :
    ∃ q, IsLineEnd inputData to_ q := by
  rcases IndexByte_spec (inputData.drop to_) newline with ⟨_, hall⟩ | ⟨k, _, hk, hall⟩
  · refine ⟨inputData.length, h, Nat.le_refl _, Or.inl rfl, ?_⟩
    intro i _ hti
    have := hall (i - to_)
    rw [List.getElem?_drop] at this
    have hh : to_ + (i - to_) = i := by omega
    rwa [hh] at this
  · rw [List.getElem?_drop] at hk
    have hkl : to_ + k < inputData.length := by
      by_contra hne
      rw [List.getElem?_eq_none (by omega)] at hk
      exact absurd hk (by simp)
    refine ⟨to_ + k, Nat.le_add_right _ _, Nat.le_of_lt hkl, Or.inr hk, ?_⟩
    intro i hi hti
    have := hall (i - to_) (by omega)
    rw [List.getElem?_drop] at this
    have hh : to_ + (i - to_) = i := by omega
    rwa [hh] at this

/-- The window the handler computes, in terms of the enclosing line. -/
theorem lineWindow_val (inputData : Bytes) (from_ to_ s q : Nat)
    (h1 : from_ < to_) (h2 : to_ ≤ inputData.length) (hlen : inputData.length < 2 ^ 63)
    (hs : IsLineStart inputData from_ s) (hq : IsLineEnd inputData to_ q) :
    lineWindow inputData from_ to_ =
      some (max s (from_ - 32),
        if q = inputData.length then min (inputData.length - 1) (to_ + 32)
        else min q (to_ + 32)) := by
  rw [lineWindow_eq inputData from_ to_ (by omega) h2]
  have e1 := lineStart_expr inputData from_ s (by omega) hs
  have e2 := lineEnd_expr inputData to_ q (by omega) hlen hq
  simp only at e1 e2
  rw [e1, e2]


theorem slice_eq_some (b : Bytes) (lo hi : Nat) (h1 : lo ≤ hi) (h2 : hi ≤ b.length) :
    slice b lo hi = some ((b.drop lo).take (hi - lo)) := by
  simp [slice, h1, h2]

/-- The window is always a valid slice of the buffer. -/
theorem lineWindow_in_range (inputData : Bytes) (from_ to_ : Nat)
    (h1 : from_ < to_) (h2 : to_ ≤ inputData.length) (hlen : inputData.length < 2 ^ 63) :
    ∃ lineStart lineEnd, lineWindow inputData from_ to_ = some (lineStart, lineEnd) ∧
      lineStart ≤ lineEnd ∧ lineEnd ≤ inputData.length := by
  obtain ⟨s, hs⟩ := exists_lineStart inputData from_
  obtain ⟨q, hq⟩ := exists_lineEnd inputData to_ h2
  refine ⟨_, _, lineWindow_val inputData from_ to_ s q h1 h2 hlen hs hq, ?_, ?_⟩
  · have := hs.1
    have := hq.1
    split_ifs <;> omega
  · have := hq.2.1
    split_ifs <;> omega

/-- C3: for a span `[from_, to_)` inside the buffer, the window of the match
handler starts at `max s (from_ - 32)`, where `s` is one past the last
newline strictly before `from_` (0 when there is none), and the context
string is the slice of the buffer from that position to the window end. -/
theorem C3_context_starts_at_line_start (inputData : Bytes) (from_ to_ s : Nat)
    (h1 : from_ < to_) (h2 : to_ ≤ inputData.length) (hlen : inputData.length < 2 ^ 63)
    (hs : IsLineStart inputData from_ s) :
    (lineWindow inputData from_ to_).map Prod.fst = some (max s (from_ - 32)) ∧
    ∃ lineEnd, max s (from_ - 32) ≤ lineEnd ∧ lineEnd ≤ inputData.length ∧
      contextLine inputData from_ to_ =
        some ((inputData.drop (max s (from_ - 32))).take (lineEnd - max s (from_ - 32))) := by
  obtain ⟨q, hq⟩ := exists_lineEnd inputData to_ h2
  have hv := lineWindow_val inputData from_ to_ s q h1 h2 hlen hs hq
  obtain ⟨a, e, hw, hle, hlen2⟩ := lineWindow_in_range inputData from_ to_ h1 h2 hlen
  rw [hv] at hw
  have ha : a = max s (from_ - 32) := by
    have := congrArg (Option.map Prod.fst) hw
    simpa using this.symm
  subst ha
  refine ⟨by rw [hv]; rfl, e, hle, hlen2, ?_⟩
  simp only [Option.some.injEq, Prod.mk.injEq, true_and] at hw
  rw [hw] at hv
  simp only [contextLine, hv, Option.bind_eq_bind, Option.some_bind]
  exact slice_eq_some _ _ _ hle hlen2

/-- C3 at the buffer `ab\nAPI_KEY=abcdef123\nxx` and the span `[3, 11)`: the
enclosing line starts at 3, right after the newline at 2. -/
theorem C3_context_starts_at_line_start_witness :
    (lineWindow (utf8 "ab\nAPI_KEY=abcdef123\nxx") 3 11).map Prod.fst = some (max 3 (3 - 32)) ∧
    ∃ lineEnd, max 3 (3 - 32) ≤ lineEnd ∧ lineEnd ≤ (utf8 "ab\nAPI_KEY=abcdef123\nxx").length ∧
      contextLine (utf8 "ab\nAPI_KEY=abcdef123\nxx") 3 11 =
        some (((utf8 "ab\nAPI_KEY=abcdef123\nxx").drop (max 3 (3 - 32))).take
          (lineEnd - max 3 (3 - 32))) :=
  C3_context_starts_at_line_start (utf8 "ab\nAPI_KEY=abcdef123\nxx") 3 11 3
    (by decide) (by decide) (by decide) (by unfold IsLineStart; decide)

/-- C2 (the code at the claim's example): for the buffer `API_KEY=abcdef123`
(17 bytes, no newline) and the span `[0, 8)` the window is `[0, 16)` and the
context string is `API_KEY=abcdef12`, one byte short of the buffer, although
the first newline position at or after 8 is taken as 17 and `min 17 (8 + 32)`
is 17. -/
theorem C2_context_drops_last_byte :
    IsLineEnd (utf8 "API_KEY=abcdef123") 8 17 ∧
    lineWindow (utf8 "API_KEY=abcdef123") 0 8 = some (0, 16) ∧
    contextLine (utf8 "API_KEY=abcdef123") 0 8 = some (utf8 "API_KEY=abcdef12") ∧
    contextLine (utf8 "API_KEY=abcdef123") 0 8 ≠ some (utf8 "API_KEY=abcdef123") := by
  refine ⟨by unfold IsLineEnd; decide, by decide, by decide, by decide⟩


/-! ## Deduplication -/

/-- The loop over the indices of a suffix `l` of `results = pre ++ l`. -/
theorem dedup_loop (l pre tmp : List Result) :
    (List.range' pre.length l.length).foldl
      (fun tmp i =>
        match (pre ++ l)[i]? with
        | some m => if dedupKeep (pre ++ l) i m then tmp ++ [m] else tmp
        | none => tmp) tmp
      = tmp ++ dedupRec l := by
  induction l generalizing pre tmp with
  | nil => simp [dedupRec]
  | cons x l ih =>
    have hx : (pre ++ x :: l)[pre.length]? = some x := by
      rw [List.getElem?_append_right (Nat.le_refl _)]; simp
    have hassoc : pre ++ x :: l = (pre ++ [x]) ++ l := by simp
    have hlen : (pre ++ [x]).length = pre.length + 1 := by simp
    simp only [List.length_cons, List.range'_succ, List.foldl_cons, hx]
    rw [hassoc, ← hlen, ih (pre ++ [x])]
    cases l with
    | nil =>
      simp [dedupKeep, dedupRec]
    | cons y rest =>
      have hy : (pre ++ [x] ++ y :: rest)[pre.length + 1]? = some y := by
        rw [List.getElem?_append_right (Nat.le_of_eq hlen)]; simp
      have hlast : (pre.length == (pre ++ [x] ++ y :: rest).length - 1) = false := by
        rw [beq_eq_false_iff_ne]; simp
      simp only [dedupKeep, hy, hlast, Bool.false_or, dedupRec]
      split_ifs <;> simp

theorem dedup_eq_dedupRec (results : List Result) : dedup results = dedupRec results := by
  have := dedup_loop results [] []
  simpa [dedup, List.range_eq_range'] using this

theorem splitBy_loop_lasts (l : List Result) (a : Result) (g : List Result)
    (gs : List (List Result)) :
    (List.splitBy.loop sameGrowingRun l a g gs).filterMap List.getLast? =
      gs.reverse.filterMap List.getLast? ++ dedupRec (a :: l) := by
  induction l generalizing a g gs with
  | nil => simp [List.splitBy.loop, dedupRec, List.getLast?_reverse]
  | cons b l ih =>
    unfold List.splitBy.loop
    by_cases h : sameGrowingRun a b = true
    · have hk : (b.PatternID != a.PatternID ||
          (decide (b.Content.length < a.Content.length) && b.PatternID == a.PatternID)) = false := by
        simp only [sameGrowingRun, Bool.and_eq_true, beq_iff_eq, decide_eq_true_eq] at h
        simp [h.1]; exact h.2
      simp only [h, ih, dedupRec, hk, Bool.false_eq_true, if_false]
    · have hk : (b.PatternID != a.PatternID ||
          (decide (b.Content.length < a.Content.length) && b.PatternID == a.PatternID)) = true := by
        simp only [sameGrowingRun, Bool.and_eq_true, beq_iff_eq, decide_eq_true_eq, not_and,
          not_le] at h
        by_cases hid : a.PatternID = b.PatternID
        · simp [hid, h hid]
        · have : b.PatternID ≠ a.PatternID := fun e => hid e.symm
          simp [this]
      have hf : sameGrowingRun a b = false := by simpa using h
      simp only [hf, ih, dedupRec, hk, if_true]
      simp [List.getLast?_reverse]

/-- C4: the deduplication pass retains exactly the last element of each
maximal run of consecutive results that share a pattern identifier and whose
matched-text lengths never decrease, in the original order. The runs are the
groups of `List.splitBy`: they concatenate to the list, none is empty,
neighbours inside a group are related, and the last element of a group is not
related to the first of the next. For pattern 0 with lengths 2, 5, 9 followed
by one result of pattern 1 the pass returns the length-9 result and the
pattern-1 result. -/
theorem C4_dedup_keeps_last_of_each_run :
    (∀ results : List Result,
      dedup results = (results.splitBy sameGrowingRun).filterMap List.getLast? ∧
      (results.splitBy sameGrowingRun).flatten = results ∧
      [] ∉ results.splitBy sameGrowingRun ∧
      (results.splitBy sameGrowingRun).Forall
        (fun run => run.Chain' (fun x y => sameGrowingRun x y = true)) ∧
      (results.splitBy sameGrowingRun).Chain'
        (fun a b => ∃ ha hb, sameGrowingRun (a.getLast ha) (b.head hb) = false)) ∧
    dedup
      [⟨0, "f", utf8 "AB", [], "p"⟩, ⟨0, "f", utf8 "ABCDE", [], "p"⟩,
       ⟨0, "f", utf8 "ABCDEFGHI", [], "p"⟩, ⟨1, "f", utf8 "XYZ", [], "q"⟩] =
      [⟨0, "f", utf8 "ABCDEFGHI", [], "p"⟩, ⟨1, "f", utf8 "XYZ", [], "q"⟩] := by
  refine ⟨fun results => ⟨?_, List.flatten_splitBy _ _, List.nil_not_mem_splitBy _ _,
    List.forall_iff_forall_mem.mpr (fun _ h => List.chain'_of_mem_splitBy h),
    List.chain'_getLast_head_splitBy _ _⟩, by decide⟩
  rw [dedup_eq_dedupRec]
  cases results with
  | nil => simp [dedupRec, List.splitBy]
  | cons a l =>
    have := splitBy_loop_lasts l a [] []
    simpa [List.splitBy] using this.symm


/-- C5 (the code on two files with the same secret): the engine delivers one
callback for pattern 0 in `/a.env` and one in `/b.env`; the collected list
holds both, and the deduplicated list returned by `Grep` holds only the
result of `/b.env`, none with path `/a.env`. -/
theorem C5_dedup_merges_across_files :
    (exampleGrepper.scan (utf8 "API_KEY=abc")).1.map (fun ev => ev.id) = [0] ∧
    (exampleGrepper.walkAll [] exampleWalk []).map
        (fun r => r.1.map (fun x => (x.PatternID, x.Path))) =
      some [(0, "/a.env"), (0, "/b.env")] ∧
    (exampleGrepper.Grep exampleWalk []).map
        (fun r => r.1.map (fun x => (x.PatternID, x.Path))) =
      some [(0, "/b.env")] := by
  refine ⟨by decide, by decide, by decide⟩

/-! ## The archive acquirer -/

theorem totalSize_foldl (l : List ZipEntry) (a : Nat) :
    l.foldl (fun size entry => addU64 size entry.UncompressedSize64) (a % u64) =
      (a + (l.map (fun e => e.UncompressedSize64)).sum) % u64 := by
  induction l generalizing a with
  | nil => simp
  | cons e l ih =>
    simp only [List.foldl_cons, List.map_cons, List.sum_cons]
    have : addU64 (a % u64) e.UncompressedSize64 = (a + e.UncompressedSize64) % u64 := by
      simp [addU64, Nat.add_mod]
    rw [this, ih, Nat.add_assoc]

/-- The accumulated size is the true sum reduced modulo `2^64`. -/
theorem totalSize_eq (z : ZipReader) :
    totalSize z = (z.File.map (fun e => e.UncompressedSize64)).sum % u64 := by
  have := totalSize_foldl z.File 0
  simpa [totalSize] using this

/-- When the declared sizes sum to less than `2^64`, the choice follows the
true sum. -/
theorem chooseLocation_of_sum_lt (env : Env) (z : ZipReader)
    (h : (z.File.map (fun e => e.UncompressedSize64)).sum < u64) :
    chooseLocation env z =
      if (z.File.map (fun e => e.UncompressedSize64)).sum > maxZipUncompressedSize env
      then InFilesystem else InMemory := by
  rw [chooseLocation, totalSize_eq, Nat.mod_eq_of_lt h]

/-- C7 (the code on an archive whose declared sizes sum to `2^64`): with 16
GiB of memory and 8 cores the threshold is 1202590840; the two declared sizes
of `2^63` sum to `2^64`, above the threshold, but the `uint64` accumulator
wraps to 0 and `Download` creates Memory storage. -/
theorem C7_declared_size_sum_wraps :
    maxZipUncompressedSize (exampleEnv [80, 75] wrapArchive) = 1202590840 ∧
    (wrapArchive.File.map (fun e => e.UncompressedSize64)).sum = 2 ^ 64 ∧
    totalSize wrapArchive = 0 ∧
    chooseLocation (exampleEnv [80, 75] wrapArchive) wrapArchive = InMemory ∧
    ((NewZipDownloader InMemory).Download (exampleEnv [80, 75] wrapArchive) "u" emptyWorld).map
        (fun r => (r.1.1.map (fun repo => repo.workFS), r.1.2)) =
      some (some (some { location := InMemory, path := "" }), none) := by
  refine ⟨by decide, by decide, by decide, by decide, by decide⟩


/-- C8 (as stated, at a body of exactly `N = 4` bytes): `downloadZip` creates
the spool file `/tmp/gitmon_zip_0` and returns a release callback. -/
theorem C8_full_buffer_is_spooled :
    ReadFull [80, 75, 5, 6] 4 = (4, .nil) ∧
    ((NewZipDownloader InMemory).downloadZip (exampleEnv [80, 75, 5, 6] wrapArchive) "u" 4
        [some { StatusCode := 200, Body := [80, 75, 5, 6] }] emptyWorld).map
        (fun r => (r.1.spool, r.1.releaser.isSome, r.2.files)) =
      some (some "/tmp/gitmon_zip_0", true, ["/tmp/gitmon_zip_0"]) := by
  refine ⟨by decide, by decide⟩

/-- C8 (amended): when the request is issued and answered by a response that
is not retried, the body is not empty and the temporary file can be created,
`downloadZip` with a peek buffer of `N` bytes returns, and it spools to a
temporary file and returns a release callback if and only if the body is at
least `N` bytes long; a shorter body leaves the world untouched. -/
theorem C8_spools_iff_body_fills_buffer (d : ZipDownloader) (env : Env) (zipURL : String)
    (N : Nat) (r : Response) (rest : List (Option Response)) (w : World)
    (hbody : 0 < r.Body.length)
    (hreq : env.newRequestFails zipURL = false)
    (hurl : (d.authStorage.isSome && env.urlParseFails zipURL) = false)
    (hst : (r.StatusCode == StatusForbidden && d.blocking) = false)
    (htmp : env.tempFileFails w.serial = false) :
    ∃ res w2, d.downloadZip env zipURL N (some r :: rest) w = some (res, w2) ∧
      (res.releaser.isSome = true ↔ N ≤ r.Body.length) ∧
      (res.spool.isSome = true ↔ N ≤ r.Body.length) ∧
      (r.Body.length < N → w2 = w) ∧
      (N ≤ r.Body.length →
        res.spool = some (tempName "gitmon_zip_" w.serial) ∧
        w2.files = tempName "gitmon_zip_" w.serial :: w.files) := by
  by_cases hle : N ≤ r.Body.length
  · have hrf : ReadFull r.Body N = (N, .nil) := by simp [ReadFull, hle]
    have htf : osTempFile env "gitmon_zip_" w =
        (some (tempName "gitmon_zip_" w.serial),
          { w with files := tempName "gitmon_zip_" w.serial :: w.files,
                   openFiles := tempName "gitmon_zip_" w.serial :: w.openFiles,
                   serial := w.serial + 1,
                   trace := w.trace ++ [.TempFile (tempName "gitmon_zip_" w.serial)] }) := by
      simp [osTempFile, htmp]
    simp only [ZipDownloader.downloadZip, hreq, hurl, hst, hrf, htf, Bool.false_eq_true,
      if_false, reduceCtorEq]
    split_ifs
    · exact ⟨_, _, rfl, by simp [hle], by simp [hle], fun h => absurd hle (by omega),
        fun _ => ⟨rfl, rfl⟩⟩
    · exact ⟨_, _, rfl, by simp [hle], by simp [hle], fun h => absurd hle (by omega),
        fun _ => ⟨rfl, rfl⟩⟩
    · exact ⟨_, _, rfl, by simp [hle], by simp [hle], fun h => absurd hle (by omega),
        fun _ => ⟨rfl, rfl⟩⟩
    · split
      · exact ⟨_, _, rfl, by simp [hle], by simp [hle], fun h => absurd hle (by omega),
          fun _ => ⟨rfl, rfl⟩⟩
      · exact ⟨_, _, rfl, by simp [hle], by simp [hle], fun h => absurd hle (by omega),
          fun _ => ⟨rfl, rfl⟩⟩
  · have hne : ¬ r.Body.length = 0 := by omega
    have hrf : ReadFull r.Body N = (r.Body.length, .ErrUnexpectedEOF) := by
      simp [ReadFull, hle, hne]
    simp only [ZipDownloader.downloadZip, hreq, hurl, hst, hrf, Bool.false_eq_true,
      if_false, if_true]
    split
    · exact ⟨_, _, rfl, by simp [hle], by simp [hle], fun _ => rfl, fun h => absurd h hle⟩
    · exact ⟨_, _, rfl, by simp [hle], by simp [hle], fun _ => rfl, fun h => absurd h hle⟩

/-- C8 (amended) at a body of five bytes and a peek buffer of four. -/
theorem C8_spools_iff_body_fills_buffer_witness :
    ∃ res w2, (NewZipDownloader InMemory).downloadZip (exampleEnv [] wrapArchive) "u" 4
        (some { StatusCode := 200, Body := [80, 75, 5, 6, 0] } :: []) emptyWorld = some (res, w2) ∧
      (res.releaser.isSome = true ↔ 4 ≤ ([80, 75, 5, 6, 0] : Bytes).length) ∧
      (res.spool.isSome = true ↔ 4 ≤ ([80, 75, 5, 6, 0] : Bytes).length) ∧
      (([80, 75, 5, 6, 0] : Bytes).length < 4 → w2 = emptyWorld) ∧
      (4 ≤ ([80, 75, 5, 6, 0] : Bytes).length →
        res.spool = some (tempName "gitmon_zip_" emptyWorld.serial) ∧
        w2.files = tempName "gitmon_zip_" emptyWorld.serial :: emptyWorld.files) :=
  C8_spools_iff_body_fills_buffer (NewZipDownloader InMemory) (exampleEnv [] wrapArchive) "u" 4
    { StatusCode := 200, Body := [80, 75, 5, 6, 0] } [] emptyWorld
    (by decide) rfl rfl (by decide) rfl


/-! ## Release of a repository -/

theorem OnlyRemoves_id : OnlyRemoves (fun w => w) :=
  ⟨fun _ => true, fun _ => true, fun _ => true, fun w => by simp⟩

theorem OnlyRemoves_comp {f g : World → World} (hf : OnlyRemoves f) (hg : OnlyRemoves g) :
    OnlyRemoves (fun w => g (f w)) := by
  obtain ⟨P1, Q1, R1, h1⟩ := hf
  obtain ⟨P2, Q2, R2, h2⟩ := hg
  refine ⟨fun x => P2 x && P1 x, fun x => Q2 x && Q1 x, fun x => R2 x && R1 x, fun w => ?_⟩
  obtain ⟨a1, b1, c1, d1⟩ := h1 w
  obtain ⟨a2, b2, c2, d2⟩ := h2 (f w)
  simp only [a2, b2, c2, d2, a1, b1, c1, d1, List.filter_filter, and_self]

theorem OnlyRemoves_osRemoveAll (path : String) : OnlyRemoves (osRemoveAll path) :=
  ⟨fun d => d != path, fun _ => true, fun _ => true, fun w => by simp [osRemoveAll]⟩

theorem OnlyRemoves_zipReleaser (name : String) : OnlyRemoves (zipReleaser name) :=
  ⟨fun _ => true, fun f => f != name, fun f => f != name, fun w => by
    simp [zipReleaser, osRemove, fileClose]⟩

theorem OnlyRemoves_StorageClose (s : Storage) : OnlyRemoves s.Close := by
  by_cases h : (s.location == InFilesystem && s.path != "") = true
  · have : s.Close = osRemoveAll s.path := by
      funext w; simp only [Storage.Close, h, if_true]
    rw [this]; exact OnlyRemoves_osRemoveAll _
  · have : s.Close = fun w => w := by
      funext w; simp only [Storage.Close, h, if_false]; rfl
    rw [this]; exact OnlyRemoves_id

theorem OnlyRemoves_RepoClose (r : Repo)
    (h : ∀ f, r.releaser = some f → ∃ name, f = zipReleaser name) : OnlyRemoves r.Close := by
  have h1 : OnlyRemoves (fun w => match r.storeFS with
      | some s => s.Close w
      | none => w) := by
    cases r.storeFS with
    | none => exact OnlyRemoves_id
    | some s => exact OnlyRemoves_StorageClose s
  have h2 : OnlyRemoves (fun w => match r.workFS with
      | some s => s.Close w
      | none => w) := by
    cases r.workFS with
    | none => exact OnlyRemoves_id
    | some s => exact OnlyRemoves_StorageClose s
  have h3 : OnlyRemoves (fun w => match r.releaser with
      | some f => f w
      | none => w) := by
    cases hr : r.releaser with
    | none => exact OnlyRemoves_id
    | some f =>
      obtain ⟨name, rfl⟩ := h f hr
      exact OnlyRemoves_zipReleaser name
  have h12 := OnlyRemoves_comp h1 h2
  have h123 := OnlyRemoves_comp h12 h3
  exact h123

/-- C9 (as stated, on a repository with a disk working tree and a spooled
archive): the second `Close` issues `os.RemoveAll` for the directory again and
invokes the release callback again, so the world with its record of calls is
not the one a single `Close` leaves. -/
theorem C9_second_close_releases_again :
    (exampleRepo.Close exampleRepoWorld).trace =
      [.RemoveAll "/tmp/gitmon_1", .Close "/tmp/gitmon_zip_0", .Remove "/tmp/gitmon_zip_0"] ∧
    (exampleRepo.Close (exampleRepo.Close exampleRepoWorld)).trace =
      [.RemoveAll "/tmp/gitmon_1", .Close "/tmp/gitmon_zip_0", .Remove "/tmp/gitmon_zip_0",
       .RemoveAll "/tmp/gitmon_1", .Close "/tmp/gitmon_zip_0", .Remove "/tmp/gitmon_zip_0"] ∧
    exampleRepo.Close (exampleRepo.Close exampleRepoWorld) ≠ exampleRepo.Close exampleRepoWorld := by
  refine ⟨by decide, by decide, by decide⟩

/-- C9 (amended): for a repository whose release callback, when present, is
the one `downloadZip` builds, a second `Close` returns and leaves the
temporary directories, the temporary files, the open descriptors and the
name supply exactly as a single `Close` leaves them. -/
theorem C9_second_close_changes_nothing (r : Repo) (w : World)
    (h : ∀ f, r.releaser = some f → ∃ name, f = zipReleaser name) :
    (r.Close (r.Close w)).dirs = (r.Close w).dirs ∧
    (r.Close (r.Close w)).files = (r.Close w).files ∧
    (r.Close (r.Close w)).openFiles = (r.Close w).openFiles ∧
    (r.Close (r.Close w)).serial = (r.Close w).serial := by
  obtain ⟨P, Q, R, hc⟩ := OnlyRemoves_RepoClose r h
  obtain ⟨a1, b1, c1, d1⟩ := hc w
  obtain ⟨a2, b2, c2, d2⟩ := hc (r.Close w)
  simp only [a2, b2, c2, d2, a1, b1, c1, d1, List.filter_filter, Bool.and_self, and_self]

/-- C9 (amended) at the example repository. -/
theorem C9_second_close_changes_nothing_witness :
    (exampleRepo.Close (exampleRepo.Close exampleRepoWorld)).dirs =
      (exampleRepo.Close exampleRepoWorld).dirs ∧
    (exampleRepo.Close (exampleRepo.Close exampleRepoWorld)).files =
      (exampleRepo.Close exampleRepoWorld).files ∧
    (exampleRepo.Close (exampleRepo.Close exampleRepoWorld)).openFiles =
      (exampleRepo.Close exampleRepoWorld).openFiles ∧
    (exampleRepo.Close (exampleRepo.Close exampleRepoWorld)).serial =
      (exampleRepo.Close exampleRepoWorld).serial :=
  C9_second_close_changes_nothing exampleRepo exampleRepoWorld
    (fun _ hf => ⟨"/tmp/gitmon_zip_0", (Option.some.inj hf).symm⟩)

/-! ## The clone acquirer -/

/-- C10 (the code when `git.Clone` fails, and when the second location is
invalid): `Download` returns no repository and an error, and the temporary
directories it created are still there; a repository is returned exactly when
the error is nil. -/
theorem C10_failed_clone_leaks_storages :
    (NewCloneDownloader InFilesystem InFilesystem).Download failingCloneEnv "u" emptyWorld =
      ((none, some .cloning),
        { emptyWorld with
          dirs := ["/tmp/gitmon_1", "/tmp/gitmon_0"], serial := 2,
          trace := [.MkdirTemp "/tmp/gitmon_0", .MkdirTemp "/tmp/gitmon_1"] }) ∧
    ((NewCloneDownloader InFilesystem InFilesystem).Download failingCloneEnv "u" emptyWorld).2.dirs ≠
      emptyWorld.dirs ∧
    (NewCloneDownloader InFilesystem 2).Download (exampleEnv [] wrapArchive) "u" emptyWorld =
      ((none, some .ErrInvalidLocation),
        { emptyWorld with
          dirs := ["/tmp/gitmon_0"], serial := 1, trace := [.MkdirTemp "/tmp/gitmon_0"] }) ∧
    (∀ (cd : CloneDownloader) (env : Env) (repoURL : String) (w : World),
      (cd.Download env repoURL w).1.1.isSome = true ↔ (cd.Download env repoURL w).1.2 = none) := by
  refine ⟨rfl, by decide, rfl, ?_⟩
  intro cd env repoURL w
  unfold CloneDownloader.Download
  split
  · simp
  · split
    · simp
    · split_ifs <;> simp


/-! ## Status codes and the configured location of the archive acquirer -/

/-- The status code is read only to compare it with 403 when the downloader
blocks: two responses with the same body are treated alike otherwise. -/
theorem downloadZip_ignores_status (d : ZipDownloader) (env : Env) (zipURL : String)
    (N : Nat) (body : Bytes) (s1 s2 : Nat) (rest : List (Option Response)) (w : World)
    (h1 : (s1 == StatusForbidden && d.blocking) = false)
    (h2 : (s2 == StatusForbidden && d.blocking) = false) :
    d.downloadZip env zipURL N (some { StatusCode := s1, Body := body } :: rest) w =
      d.downloadZip env zipURL N (some { StatusCode := s2, Body := body } :: rest) w := by
  simp only [ZipDownloader.downloadZip, h1, h2]

/-- `downloadZip` reads the responses from its argument, not from the
environment. -/
theorem downloadZip_ignores_env_responses (d : ZipDownloader) (env : Env)
    (rs : List (Option Response)) (zipURL : String) (N : Nat)
    (responses : List (Option Response)) (w : World) :
    d.downloadZip { env with responses := rs } zipURL N responses w =
      d.downloadZip env zipURL N responses w := by
  induction responses generalizing w with
  | nil => simp [ZipDownloader.downloadZip]
  | cons resp rest ih =>
    cases resp with
    | none => simp [ZipDownloader.downloadZip]
    | some r =>
      simp only [ZipDownloader.downloadZip]
      by_cases hb : (r.StatusCode == StatusForbidden && d.blocking) = true
      · simp only [hb, if_true, ih]
      · have hb2 : (r.StatusCode == StatusForbidden && d.blocking) = false := by simpa using hb
        simp only [hb2, Bool.false_eq_true, if_false]
        rfl

theorem safeBuffer_short (body : Bytes) (N : Nat) (h : body.length < N) :
    (safeBufferAfter body N).take body.length = body := by
  simp [safeBufferAfter, List.take_of_length_le (Nat.le_of_lt h), List.take_append_eq_append_take]

theorem safeBuffer_long (body : Bytes) (N : Nat) (h : N ≤ body.length) :
    safeBufferAfter body N ++ body.drop N = body := by
  have : N - body.length = 0 := by omega
  simp [safeBufferAfter, this]

/-- When the response is not retried and its body does not parse, `downloadZip`
returns an error and no reader. -/
theorem downloadZip_malformed (d : ZipDownloader) (env : Env) (zipURL : String) (N : Nat)
    (s : Nat) (body : Bytes) (rest : List (Option Response)) (w : World)
    (hst : (s == StatusForbidden && d.blocking) = false)
    (hparse : env.parseZip body = none)
    (hzero : ∀ n, env.parseZip (List.replicate n 0) = none) :
    ∃ res w2, d.downloadZip env zipURL N (some { StatusCode := s, Body := body } :: rest) w =
        some (res, w2) ∧ res.err.isSome = true := by
  simp only [ZipDownloader.downloadZip, hst, Bool.false_eq_true, if_false]
  by_cases h1 : env.newRequestFails zipURL = true
  · simp only [h1, if_true]
    exact ⟨_, _, rfl, rfl⟩
  by_cases h2 : (d.authStorage.isSome && env.urlParseFails zipURL) = true
  · simp only [h1, h2, if_true, Bool.false_eq_true, if_false]
    exact ⟨_, _, rfl, rfl⟩
  simp only [h1, h2, Bool.false_eq_true, if_false]
  by_cases h3 : (ReadFull body N).2 = ReadErr.ErrUnexpectedEOF
  · have hlt : body.length < N := by
      simp only [ReadFull] at h3
      split_ifs at h3
      omega
    have hrf : (ReadFull body N).1 = body.length := by
      simp only [ReadFull]
      split_ifs <;> omega
    simp only [h3, if_true, hrf, safeBuffer_short body N hlt, hparse]
    exact ⟨_, _, rfl, rfl⟩
  · have hbytes : env.parseZip (safeBufferAfter body N ++ body.drop N) = none := by
      by_cases hle : N ≤ body.length
      · rw [safeBuffer_long body N hle]; exact hparse
      · have hz : body.length = 0 := by
          simp only [ReadFull] at h3
          split_ifs at h3 <;> first | omega | simp_all
        have hnil : body = [] := List.length_eq_zero.mp hz
        subst hnil
        simpa [safeBufferAfter] using hzero N
    simp only [h3, if_false, hbytes]
    cases htf : osTempFile env "gitmon_zip_" w with
    | mk o w3 =>
      cases o with
      | none => exact ⟨_, _, rfl, rfl⟩
      | some fd =>
        simp only
        split_ifs <;> exact ⟨_, _, rfl, rfl⟩

/-- C11 (as stated, on a 404 response whose body is the empty archive):
`Download` returns a repository with Memory storage and a nil error. -/
theorem C11_non_success_status_is_accepted :
    (notFoundEnv.responses.map (fun r => r.map (fun x => (x.StatusCode, x.Body.length)))) =
      [some (404, 22)] ∧
    ((NewZipDownloader InMemory).Download notFoundEnv "u" emptyWorld).map
        (fun r => (r.1.1.map (fun repo => repo.workFS), r.1.2)) =
      some (some (some { location := InMemory, path := "" }), none) ∧
    ((NewZipDownloader InMemory).Download notFoundEnv "u" emptyWorld).map
        (fun r => r.1.1.isSome) = some true := by
  refine ⟨by decide, by decide, by decide⟩

/-- `Download` treats two responses with the same body alike, whatever
their status codes, as long as neither is a 403 that is retried. -/
theorem Download_ignores_status (d : ZipDownloader) (env : Env) (repoURL : String) (w : World)
    (s s2 : Nat) (body : Bytes) (rest : List (Option Response))
    (hresp : env.responses = some { StatusCode := s, Body := body } :: rest)
    (hst : (s == StatusForbidden && d.blocking) = false)
    (hst2 : (s2 == StatusForbidden && d.blocking) = false) :
    d.Download { env with responses := some { StatusCode := s2, Body := body } :: rest }
        repoURL w =
      d.Download env repoURL w := by
  have h1 : d.downloadZip
        { env with responses := some { StatusCode := s2, Body := body } :: rest } repoURL
        (maxZipFileSize env) (some { StatusCode := s2, Body := body } :: rest) w =
      d.downloadZip env repoURL (maxZipFileSize env) env.responses w := by
    rw [downloadZip_ignores_env_responses, hresp]
    exact downloadZip_ignores_status d env repoURL _ body s2 s rest w hst2 hst
  unfold ZipDownloader.Download
  show (match d.downloadZip
        { env with responses := some { StatusCode := s2, Body := body } :: rest } repoURL
        (maxZipFileSize env) (some { StatusCode := s2, Body := body } :: rest) w with
      | none => none
      | some (res, w) => _) = _
  rw [h1]
  rfl

/-- C11 (amended): when the response is not a 403 that is retried and its body
does not parse as a zip archive, `Download` returns an error and no
repository; the status code plays no part: the same body with any other
status that is not retried, 200 included, gives the same result. -/
theorem C11_malformed_body_is_rejected (d : ZipDownloader) (env : Env) (repoURL : String)
    (w : World) (s s2 : Nat) (body : Bytes) (rest : List (Option Response))
    (hresp : env.responses = some { StatusCode := s, Body := body } :: rest)
    (hst : (s == StatusForbidden && d.blocking) = false)
    (hst2 : (s2 == StatusForbidden && d.blocking) = false)
    (hparse : env.parseZip body = none)
    (hzero : ∀ n, env.parseZip (List.replicate n 0) = none) :
    (∃ err d2 w2, d.Download env repoURL w = some ((none, some err), d2, w2)) ∧
    d.Download { env with responses := some { StatusCode := s2, Body := body } :: rest }
        repoURL w =
      d.Download env repoURL w := by
  refine ⟨?_, Download_ignores_status d env repoURL w s s2 body rest hresp hst hst2⟩
  obtain ⟨res, w2, heq, herr⟩ :=
    downloadZip_malformed d env repoURL (maxZipFileSize env) s body rest w hst hparse hzero
  obtain ⟨zr, rel, sp, er⟩ := res
  cases er with
  | none => simp at herr
  | some e =>
    simp only [ZipDownloader.Download, hresp, heq]
    exact ⟨e, _, _, rfl⟩

/-- C11 (amended) at a 404 response with a 4-byte body, compared with the
same body under status 200. -/
theorem C11_malformed_body_is_rejected_witness :
    (∃ err d2 w2, (NewZipDownloader InMemory).Download notFoundShortEnv "u" emptyWorld =
      some ((none, some err), d2, w2)) ∧
    (NewZipDownloader InMemory).Download
        { notFoundShortEnv with
          responses := some { StatusCode := 200, Body := [80, 75, 3, 4] } :: [] }
        "u" emptyWorld =
      (NewZipDownloader InMemory).Download notFoundShortEnv "u" emptyWorld :=
  C11_malformed_body_is_rejected (NewZipDownloader InMemory) notFoundShortEnv "u" emptyWorld
    404 200 [80, 75, 3, 4] [] rfl (by decide) (by decide) (by decide)
    (fun n => by
      have h : List.replicate n (0 : UInt8) ≠ emptyArchiveBytes := by
        intro he
        have h0 := congrArg (fun l => l[0]?) he
        cases n <;> simp [emptyArchiveBytes, List.replicate] at h0
      simp [notFoundShortEnv, emptyArchiveParser, h])

/-- `downloadZip` does not read the configured storage location. -/
theorem downloadZip_ignores_location (d : ZipDownloader) (loc : DownloadLocation) (env : Env)
    (zipURL : String) (N : Nat) (responses : List (Option Response)) (w : World) :
    ({ d with storageLocation := loc } : ZipDownloader).downloadZip env zipURL N responses w =
      d.downloadZip env zipURL N responses w := by
  induction responses generalizing w with
  | nil => simp [ZipDownloader.downloadZip]
  | cons resp rest ih =>
    cases resp with
    | none => simp [ZipDownloader.downloadZip]
    | some r =>
      simp only [ZipDownloader.downloadZip]
      by_cases hb : (r.StatusCode == StatusForbidden && d.blocking) = true
      · simp only [hb, if_true, ih]
      · have hb2 : (r.StatusCode == StatusForbidden && d.blocking) = false := by simpa using hb
        simp only [hb2, Bool.false_eq_true, if_false]

/-- C12 (the code on a downloader constructed with `InFilesystem` and an
archive below the threshold): `Download` assigns `InMemory` to the
downloader's location and extracts into Memory storage, creating no
directory; whatever location the downloader was constructed with, the
returned storage, error and world are the same. -/
theorem C12_configured_location_is_overwritten :
    (NewZipDownloader InFilesystem).storageLocation = InFilesystem ∧
    totalSize smallArchive ≤ maxZipUncompressedSize (exampleEnv [80, 75, 3, 4] smallArchive) ∧
    ((NewZipDownloader InFilesystem).Download (exampleEnv [80, 75, 3, 4] smallArchive) "u"
        emptyWorld).map
        (fun r => (r.1.1.map (fun repo => repo.workFS), r.1.2, r.2.1.storageLocation, r.2.2.dirs)) =
      some (some (some { location := InMemory, path := "" }), none, InMemory, []) ∧
    (∀ (d : ZipDownloader) (loc : DownloadLocation) (env : Env) (repoURL : String) (w : World),
      (({ d with storageLocation := loc } : ZipDownloader).Download env repoURL w).map
          (fun r => (r.1.1.map (fun repo => repo.workFS), r.1.2, r.2.2)) =
        (d.Download env repoURL w).map
          (fun r => (r.1.1.map (fun repo => repo.workFS), r.1.2, r.2.2))) := by
  refine ⟨rfl, by decide, by decide, ?_⟩
  intro d loc env repoURL w
  simp only [ZipDownloader.Download, downloadZip_ignores_location]
  cases d.downloadZip env repoURL (maxZipFileSize env) env.responses w with
  | none => rfl
  | some p =>
    obtain ⟨⟨zr, rel, sp, er⟩, w2⟩ := p
    cases er with
    | some e => rfl
    | none =>
      cases zr with
      | none => rfl
      | some z =>
        simp only


/-! ## Safety of the match handler -/

/-- C15: for a span `[from_, to_)` with `from_ < to_ ≤ len` in a buffer (whose
length, a Go `int`, is below `2^63`), the window computed in `uint64`
arithmetic satisfies `lineStart ≤ lineEnd ≤ len`, so the slice expressions of
the handler are in range and the handler returns a result. -/
theorem C15_window_in_range (patternMap : Nat → Option String) (path fileName : String)
    (inputData : Bytes) (id from_ to_ : Nat)
    (h1 : from_ < to_) (h2 : to_ ≤ inputData.length) (hlen : inputData.length < 2 ^ 63) :
    (∃ lineStart lineEnd, lineWindow inputData from_ to_ = some (lineStart, lineEnd) ∧
      lineStart ≤ lineEnd ∧ lineEnd ≤ inputData.length) ∧
    (contextLine inputData from_ to_).isSome = true ∧
    (matchHandler patternMap path { inputData := inputData, fileName := fileName }
      id from_ to_).isSome = true := by
  obtain ⟨a, e, hw, hle, hlen2⟩ := lineWindow_in_range inputData from_ to_ h1 h2 hlen
  have hc : contextLine inputData from_ to_ = some ((inputData.drop a).take (e - a)) := by
    simp only [contextLine, hw, Option.bind_eq_bind, Option.some_bind]
    exact slice_eq_some _ _ _ hle hlen2
  have hs := slice_eq_some inputData from_ to_ (Nat.le_of_lt h1) h2
  refine ⟨⟨a, e, hw, hle, hlen2⟩, by rw [hc]; rfl, ?_⟩
  simp only [matchHandler, hc, hs, Option.bind_eq_bind, Option.some_bind, Option.pure_def,
    Option.isSome_some]

/-- C15 at the buffer `API_KEY=` and the span `[0, 8)`, a match that ends at
the end of a buffer without newline: `lineEnd` is first 7 and `lineEnd - to_`
wraps around to `2^64 - 1`. -/
theorem C15_window_in_range_witness :
    subU64 (subU64 (utf8 "API_KEY=").length 1) 8 = 2 ^ 64 - 1 ∧
    lineWindow (utf8 "API_KEY=") 0 8 = some (0, 7) ∧
    ((∃ lineStart lineEnd, lineWindow (utf8 "API_KEY=") 0 8 = some (lineStart, lineEnd) ∧
      lineStart ≤ lineEnd ∧ lineEnd ≤ (utf8 "API_KEY=").length) ∧
    (contextLine (utf8 "API_KEY=") 0 8).isSome = true ∧
    (matchHandler (fun _ => none) "/secrets.env"
      { inputData := utf8 "API_KEY=", fileName := "/secrets.env" } 0 0 8).isSome = true) :=
  ⟨by decide, by decide,
    C15_window_in_range (fun _ => none) "/secrets.env" "/secrets.env" (utf8 "API_KEY=") 0 0 8
      (by decide) (by decide) (by decide)⟩


/-! ## Construction of the matcher -/

theorem compileLoop_flags (env : HsEnv) (compileflag : CompileFlag) (matches_ : List String)
    (i : Nat) (patterns : List Pattern) (patternMap : Nat → Option String)
    (r : List Pattern × (Nat → Option String))
    (h : compileLoop env compileflag matches_ i patterns patternMap = .ok r)
    (hp : ∀ p ∈ patterns, p.Flags = compileflag) : ∀ p ∈ r.1, p.Flags = compileflag := by
  induction matches_ generalizing i patterns patternMap with
  | nil =>
    simp only [compileLoop, Except.ok.injEq] at h
    subst h
    exact hp
  | cons m ms ih =>
    simp only [compileLoop] at h
    split at h
    · cases h
    · refine ih _ _ _ h ?_
      intro p hmem
      rcases List.mem_append.mp hmem with h1 | h1
      · exact hp p h1
      · simp only [List.mem_singleton] at h1
        subst h1
        rfl

/-- Every pattern `NewHyperscanGrepper` compiles carries exactly the flag
`SomLeftMost`. -/
theorem compilePatterns_flags (env : HsEnv) (matches_ : List String)
    (r : List Pattern × (Nat → Option String)) (h : compilePatterns env matches_ = .ok r) :
    ∀ p ∈ r.1, p.Flags = SomLeftMost := by
  have hf : ParseCompileFlag "L" = some SomLeftMost := by decide
  simp only [compilePatterns, hf] at h
  exact compileLoop_flags env SomLeftMost matches_ 0 [] _ r h (by simp)

/-- C13 (the code on the pattern `API_KEY`): the flag string `"L"` parses to
`SomLeftMost` alone, so the compiled pattern has neither `Caseless` nor
`MultiLine`, unlike the pattern `MatchList.doSet` builds and nobody uses; on
an engine that folds case exactly under `Caseless`, the matcher reports
nothing for the input `api_key=abcdef123`, which the pattern with the three
flags matches. -/
theorem C13_patterns_compiled_case_sensitive :
    ParseCompileFlag "L" = some SomLeftMost ∧
    (compilePatterns literalEnv ["API_KEY"]).toOption.map (fun r => r.1) =
      some [{ Expression := "API_KEY", Flags := SomLeftMost, Id := 0 }] ∧
    hasFlag SomLeftMost Caseless = false ∧
    hasFlag SomLeftMost MultiLine = false ∧
    hasFlag (doSetPattern "API_KEY").Flags Caseless = true ∧
    (NewHyperscanGrepper literalEnv ["API_KEY"]).toOption.map
        (fun g => (g.scan (utf8 "api_key=abcdef123")).1.length) = some 0 ∧
    ((NewHyperscanGrepper literalEnv ["API_KEY"]).toOption.bind
        (fun g => g.Grep lowerCaseWalk [])).map (fun r => r.1.length) = some 0 ∧
    (literalEngine [doSetPattern "API_KEY"] (utf8 "api_key=abcdef123")).1.map
        (fun ev => (ev.id, ev.from_, ev.to_)) = [(0, 0, 7)] := by
  refine ⟨by decide, by decide, by decide, by decide, by decide, by decide, by decide, by decide⟩

/-! ## The walk -/

theorem runCalls_append {σ : Type} (walkFn : WalkFunc σ) (a b : List (String × FileInfo))
    (st : σ) : runCalls walkFn (a ++ b) st = runCalls walkFn b (runCalls walkFn a st) := by
  simp [runCalls, List.foldl_append]

theorem walkNames_spec {σ : Type} (fs : BillyFS) (walkFn : WalkFunc σ) (fuel : Nat)
    (path : String)
    (ih : ∀ (p : String) (t : Tree) (st : σ), t.height ≤ fuel → Represents fs p t →
      walk fs walkFn fuel p t.info st = some (.nil, runCalls walkFn (t.calls p) st))
    (cs : List Tree) (st : σ) (hh : Tree.heightList cs ≤ fuel)
    (hr : RepresentsList fs path cs) :
    walkNames fs walkFn (walk fs walkFn fuel) path (cs.map (fun c => c.info.Name)) st =
      some (.nil, runCalls walkFn (Tree.callsList path cs) st) := by
  induction cs generalizing st with
  | nil => simp [walkNames, Tree.callsList, runCalls]
  | cons c cs ihc =>
    simp only [Tree.heightList] at hh
    simp only [RepresentsList] at hr
    obtain ⟨hl, hrc, hrs⟩ := hr
    have hw := ih (Join path c.info.Name) c st (by omega) hrc
    simp only [List.map_cons, walkNames, hl, hw, ne_eq, not_true_eq_false, if_false,
      Tree.callsList, runCalls_append]
    exact ihc _ (by omega) hrs

theorem walk_spec {σ : Type} (fs : BillyFS) (walkFn : WalkFunc σ)
    (hnil : ∀ p i e st, (walkFn p i e st).1 = .nil) (fuel : Nat) :
    ∀ (p : String) (t : Tree) (st : σ), t.height ≤ fuel → Represents fs p t →
      walk fs walkFn fuel p t.info st = some (.nil, runCalls walkFn (t.calls p) st) := by
  induction fuel with
  | zero =>
    intro p t st hh _
    cases t <;> simp [Tree.height] at hh
  | succ fuel ih =>
    intro p t st hh hr
    cases t with
    | file name =>
      have := hnil p (some { Name := name, IsDir := false }) false st
      have hinfo : (Tree.file name).info = { Name := name, IsDir := false } := rfl
      rw [hinfo]
      simp only [walk, Bool.not_false, if_true, Tree.calls, runCalls, List.foldl_cons,
        List.foldl_nil]
      rw [← this]
    | dir name children =>
      simp only [Tree.height] at hh
      simp only [Represents] at hr
      obtain ⟨hrd, hrl⟩ := hr
      have hnames : readdirnames fs p = some (children.map (fun c => c.info.Name)) := by
        simp [readdirnames, hrd, List.map_map, Function.comp_def]
      have h1 := hnil p (some { Name := name, IsDir := true }) false st
      have hinfo : (Tree.dir name children).info = { Name := name, IsDir := true } := rfl
      rw [hinfo]
      simp only [walk, Bool.not_true, Bool.false_eq_true, if_false, hnames,
        Option.isNone_some, h1, ne_eq, not_true_eq_false, Tree.calls]
      rw [walkNames_spec fs walkFn fuel p ih children _ (by omega) hrl]
      simp [runCalls]


mutual
theorem calls_length (p : String) : ∀ t : Tree, (Tree.calls p t).length = t.size
  | .file _ => rfl
  | .dir _ cs => by simp [Tree.calls, Tree.size, callsList_length p cs]
theorem callsList_length (p : String) :
    ∀ cs : List Tree, (Tree.callsList p cs).length = Tree.sizeList cs
  | [] => rfl
  | c :: cs => by
    simp [Tree.callsList, Tree.sizeList, calls_length (Join p c.info.Name) c,
      callsList_length p cs]
end

/-- C14 (the code on a filesystem whose `ReadDir` lists the root as `b`,
`a`): every directory can be listed and every entry stat'ed, the walk
function returns nil, and `WalkBilly` returns nil after visiting `/`, `/b`,
`/a`, in the order of the listing, although `a` comes before `b`. -/
theorem C14_unsorted_listing_is_followed :
    unsortedFS.Lstat "/" = some unsortedTree.info ∧
    Represents unsortedFS "/" unsortedTree ∧
    WalkBilly unsortedFS "/" recordVisit 2 [] = some (.nil, ["/", "/b", "/a"]) ∧
    "a".toList < "b".toList := by
  refine ⟨by decide, ?_, by decide, ?_⟩
  · simp only [unsortedTree, Represents, RepresentsList]
    decide
  · decide

/-- On a filesystem that holds the finite tree `t` at `root` (every directory
can be listed, every entry can be stat'ed), with a walk function that always
returns nil, `WalkBilly` returns nil after invoking the walk function exactly
once for every entry of the tree including the root, each directory before
its entries and the entries of each directory in the order in which `ReadDir`
lists them. -/
theorem WalkBilly_visits_in_listing_order {σ : Type} (fs : BillyFS) (root : String) (t : Tree)
    (walkFn : WalkFunc σ) (fuel : Nat) (st : σ)
    (hnil : ∀ p i e st, (walkFn p i e st).1 = .nil)
    (hroot : fs.Lstat root = some t.info) (hrep : Represents fs root t)
    (hfuel : t.height ≤ fuel) :
    WalkBilly fs root walkFn fuel st = some (.nil, runCalls walkFn (t.calls root) st) ∧
    (t.calls root).length = t.size := by
  refine ⟨?_, calls_length root t⟩
  simp only [WalkBilly, hroot, walk_spec fs walkFn hnil fuel root t st hfuel hrep]
  simp

/-- The walk of a filesystem with the directory `docs`, its file `a.md` and
the file `main.go`. -/
theorem WalkBilly_visits_in_listing_order_example :
    WalkBilly exampleFS "/" recordVisit 3 [] =
      some (.nil, runCalls recordVisit (exampleTree.calls "/") []) ∧
    (exampleTree.calls "/").length = exampleTree.size :=
  WalkBilly_visits_in_listing_order exampleFS "/" exampleTree recordVisit 3 []
    (fun _ _ _ _ => rfl) (by decide)
    (by simp only [exampleTree, Represents, RepresentsList]; decide)
    (by decide)

end Gitgrep
